import Mathlib

/-!
Shallow embedding of the salsa-2022 function-ingredient verification
algorithm, translated from
`src/components/salsa-2022/src/function/maybe_changed_after.rs`.

The embedding is sequential: there is a single caller, so the cooperative
cancellation check (`unwind_if_revision_cancelled`, whose flag can only be
set by a concurrent writer) is a no-op and is omitted, and claim contention
is modelled by an explicit environment schedule (`DB.sched`) that decides,
per claim attempt, whether an unrelated caller currently holds the claim.
Machinery that is referenced by the excerpt but whose code is not part of
the excerpt (the claim table, `Memo::check_durability`,
`Memo::mark_as_verified`, `execute`) is modelled from the specification;
each such definition carries a doc comment saying so.

Mutable state (the memo map, the durability clock, the revision counter)
is passed explicitly as a `DB` value; recursion is fuel-indexed, with
`none` meaning fuel exhaustion.
-/

namespace Salsa

/-- Revision: strictly-increasing integer identifying a point in the
database's mutation history (spec section 3). -/
abbrev Revision := Nat

/-- Durability tier (spec section 3): a small ordered set of tiers. -/
abbrev Durability := Nat

/-- Key of one query invocation (`DatabaseKeyIndex` flattened to a number). -/
abbrev Key := Nat

/-- `QueryOrigin`: how a memo's value came to exist
(`runtime::local_state::QueryOrigin`, described in spec section 3). -/
inductive QueryOrigin where
  | assigned (producer : Key)
  | baseInput
  | field
  | derivedUntracked (edges : List Key)
  | derived (edges : List Key)
  deriving Repr, DecidableEq

/-- The revision-related payload of a memo (`memo.revisions` in the source):
`changed_at`, the aggregate `durability`, and the `origin`. -/
structure QueryRevisions where
  changed_at : Revision
  durability : Durability
  origin : QueryOrigin
  deriving Repr, DecidableEq

/-- A memo: optional value, atomically-updatable `verified_at`, and the
immutable `revisions` payload (spec section 3). -/
structure Memo (V : Type) where
  value : Option V
  verified_at : Revision
  revisions : QueryRevisions
  deriving Repr, DecidableEq

/-- Result of one run of the external Query Executor for a key: the fresh
value, the ordered dependency-edge list recorded during execution, and the
aggregate durability (spec sections 4.4 and 6). -/
structure ExecResult (V : Type) where
  value : V
  edges : List Key
  durability : Durability
  deriving Repr, DecidableEq

/-- `StampedValue`: value together with durability and `changed_at`, as
returned by `execute` in the source. -/
structure StampedValue (V : Type) where
  value : V
  durability : Durability
  changed_at : Revision
  deriving Repr, DecidableEq

/-- The database state visible to the verification engine: the Revision
Clock (`current_revision` and the per-tier `last_changed` table), the Memo
Store (`memos`), the external Query Executor as an oracle mapping a key to
the result its user-supplied body would produce (`executor`), the
environment schedule deciding contention of successive claim attempts
(`sched`, consumed one entry per attempt; an exhausted schedule means no
contention), and an instrumentation counter of Query Executor invocations
(`exec_count`). -/
structure DB (V : Type) where
  current_revision : Revision
  last_changed : Durability → Revision
  memos : Key → Option (Memo V)
  executor : Key → ExecResult V
  sched : List Bool
  exec_count : Nat

variable {V : Type} [DecidableEq V]

/-- Modelled from the spec: `Memo::check_durability` is not part of the
excerpt.  Spec section 4.3 (shallow verify): the check succeeds when
`last_changed(memo.durability) ≤ verified_at`, i.e. no input of durability
at or below the memo's durability has changed since the memo was last
verified. -/
def check_durability (db : DB V) (memo : Memo V) : Bool :=
  decide (db.last_changed memo.revisions.durability ≤ memo.verified_at)

/-- Modelled from the spec: `Memo::mark_as_verified` is not part of the
excerpt.  Spec section 4.3: it advances the memo's `verified_at` to the
current revision. -/
def mark_as_verified (db : DB V) (memo : Memo V) : Memo V :=
  { memo with verified_at := db.current_revision }

/-- Replace the memo stored for `key` (the memo store's atomic swap / the
in-place `verified_at` update, which through the shared memo map amounts to
storing the updated memo under the same key). -/
def DB.setMemo (db : DB V) (key : Key) (m : Memo V) : DB V :=
  { db with memos := fun k => if k = key then some m else db.memos k }

/-- Modelled from the spec: the new memo built by `execute` (section 4.4).
The Query Executor's run is the oracle `db.executor key`; the new memo's
`changed_at` follows the backdating rule: if the old memo exists and the
new value equals (by value equality) the old memo's value, `changed_at` is
the old memo's `changed_at`, otherwise the current revision.  `verified_at`
is always the current revision. -/
def execMemo (db : DB V) (key : Key) (old_memo : Option (Memo V)) : Memo V :=
  let r := db.executor key
  let changed_at :=
    match old_memo with
    | some old =>
      match old.value with
      | some ov => if r.value = ov then old.revisions.changed_at else db.current_revision
      | none => db.current_revision
    | none => db.current_revision
  { value := some r.value
    verified_at := db.current_revision
    revisions :=
      { changed_at := changed_at
        durability := r.durability
        origin := .derived r.edges } }

/-- Modelled from the spec: `execute` (section 4.4) is not part of the
excerpt.  It invokes the Query Executor, installs the new memo atomically
(with backdated `changed_at`, see `execMemo`), and returns the stamped
value.  The instrumentation counter `exec_count` records the invocation. -/
def execute (db : DB V) (key : Key) (old_memo : Option (Memo V)) :
    StampedValue V × DB V :=
  let m := execMemo db key old_memo
  (⟨(db.executor key).value, m.revisions.durability, m.revisions.changed_at⟩,
    { db.setMemo key m with exec_count := db.exec_count + 1 })

/-- Result of one claim attempt on the Single-Flight Claim Table. -/
inductive ClaimResult where
  | granted
  | contention
  | cycle
  deriving Repr, DecidableEq

/-- Modelled from the spec: the Single-Flight Claim Table (section 4.2) is
not part of the excerpt.  A claim fails with `cycle` when the requesting
call chain itself already holds this key further up the Active Query Stack;
otherwise the environment schedule decides whether another, unrelated
caller currently holds the claim (`contention`, to be retried); otherwise
the claim is granted.  Each attempt consumes one schedule entry. -/
def DB.claimAttempt (db : DB V) (stack : List Key) (key : Key) :
    ClaimResult × DB V :=
  if key ∈ stack then (.cycle, db)
  else
    match db.sched with
    | [] => (.granted, db)
    | c :: rest =>
      (if c then .contention else .granted, { db with sched := rest })

/-- Outcome of `maybe_changed_after` (and of deep verification): a boolean
answer, or the dependency-cycle signal (which the source surfaces by
unwinding out of the claim). -/
inductive Outcome where
  | ok (changed : Bool)
  | cycle
  deriving Repr, DecidableEq

/-- Outcome of `maybe_changed_after_cold`: a boolean answer, a failed claim
due to contention (the source's `None`, which the hot path retries), or the
cycle signal. -/
inductive ColdOut where
  | ok (changed : Bool)
  | retry
  | cycle
  deriving Repr, DecidableEq

/-- `shallow_verify_memo` (source lines 107-135): true if the memo's
`changed_at` is still usable in this revision, by an O(1) check with no
dependency walk.  Succeeds if `verified_at` equals the current revision, or
if the durability check passes -- in which case it also marks the memo as
verified at the current revision.  Returns the (possibly updated) state. -/
def shallow_verify_memo (db : DB V) (key : Key) (memo : Memo V) :
    Bool × DB V :=
  if memo.verified_at = db.current_revision then (true, db)
  else if check_durability db memo then
    (true, db.setMemo key (mark_as_verified db memo))
  else (false, db)

mutual

/-- `maybe_changed_after` (source lines 21-56): the retry loop.  Reads the
memo for `key`; with no memo the answer is `true`; otherwise shallow verify
settles the hot path; otherwise the cold path runs under a claim, with a
failed (contended) claim looping back to the top.  `stack` is the Active
Query Stack of the requesting call chain.  Fuel exhaustion returns `none`. -/
def maybe_changed_after (fuel : Nat) (db : DB V) (stack : List Key)
    (key : Key) (revision : Revision) : Option (Outcome × DB V) :=
  match fuel with
  | 0 => none
  | fuel + 1 =>
    match db.memos key with
    | none => some (.ok true, db)
    | some memo =>
      match shallow_verify_memo db key memo with
      | (true, db1) =>
        some (.ok (decide (revision < memo.revisions.changed_at)), db1)
      | (false, _) =>
        match maybe_changed_after_cold fuel db stack key revision with
        | none => none
        | some (.ok c, db2) => some (.ok c, db2)
        | some (.cycle, db2) => some (.cycle, db2)
        | some (.retry, db2) => maybe_changed_after fuel db2 stack key revision

/-- `maybe_changed_after_cold` (source lines 58-102): claim the key (cycle
and contention reported distinctly), push the key on the Active Query
Stack, re-read the memo (absent: `true`), deep-verify it (valid: compare
`changed_at`), else re-execute when a prior value exists (comparing the new
`changed_at`), else `true`. -/
def maybe_changed_after_cold (fuel : Nat) (db : DB V) (stack : List Key)
    (key : Key) (revision : Revision) : Option (ColdOut × DB V) :=
  match fuel with
  | 0 => none
  | fuel + 1 =>
    match db.claimAttempt stack key with
    | (.cycle, db1) => some (.cycle, db1)
    | (.contention, db1) => some (.retry, db1)
    | (.granted, db1) =>
      match db1.memos key with
      | none => some (.ok true, db1)
      | some old_memo =>
        match deep_verify_memo fuel db1 (key :: stack) key old_memo with
        | none => none
        | some (.cycle, db2) => some (.cycle, db2)
        | some (.ok true, db2) =>
          some (.ok (decide (revision < old_memo.revisions.changed_at)), db2)
        | some (.ok false, db2) =>
          if old_memo.value.isSome then
            let r := execute db2 key (some old_memo)
            some (.ok (decide (revision < r.1.changed_at)), r.2)
          else
            some (.ok true, db2)

/-- `deep_verify_memo` (source lines 145-223): retry shallow verify, then
dispatch on the origin: `Assigned` is stale, `BaseInput`/`Field` are valid,
`DerivedUntracked` is stale, and `Derived(edges)` walks the recorded edges
in order; if the walk finds no changed input the memo is marked verified at
the current revision and the verdict is valid. -/
def deep_verify_memo (fuel : Nat) (db : DB V) (stack : List Key) (key : Key)
    (old_memo : Memo V) : Option (Outcome × DB V) :=
  match fuel with
  | 0 => none
  | fuel + 1 =>
    match shallow_verify_memo db key old_memo with
    | (true, db1) => some (.ok true, db1)
    | (false, _) =>
      match old_memo.revisions.origin with
      | .assigned _ => some (.ok false, db)
      | .baseInput => some (.ok true, db)
      | .field => some (.ok true, db)
      | .derivedUntracked _ => some (.ok false, db)
      | .derived edges =>
        match verify_edges fuel db stack old_memo.verified_at edges with
        | none => none
        | some (.cycle, db2) => some (.cycle, db2)
        | some (.ok true, db2) => some (.ok false, db2)
        | some (.ok false, db2) =>
          some (.ok true, db2.setMemo key (mark_as_verified db2 old_memo))

/-- The edge walk of `deep_verify_memo` (source lines 195-214): iterate the
recorded inputs in order, calling `maybe_changed_after(input,
last_verified_at)` on each; answer `ok true` ("some input changed") at the
first input reporting a change, without querying any later input; `ok
false` when the walk completes. -/
def verify_edges (fuel : Nat) (db : DB V) (stack : List Key)
    (last_verified_at : Revision) (edges : List Key) :
    Option (Outcome × DB V) :=
  match fuel with
  | 0 => none
  | fuel + 1 =>
    match edges with
    | [] => some (.ok false, db)
    | input :: rest =>
      match maybe_changed_after fuel db stack input last_verified_at with
      | none => none
      | some (.cycle, db1) => some (.cycle, db1)
      | some (.ok true, db1) => some (.ok true, db1)
      | some (.ok false, db1) =>
        verify_edges fuel db1 stack last_verified_at rest

end

end Salsa

namespace Salsa

variable {V : Type} [DecidableEq V]

set_option linter.unusedSectionVars false

/-- Well-formedness invariant of the database (spec section 3): every
stored memo satisfies `changed_at ≤ verified_at ≤ current_revision`. -/
def WFdb (db : DB V) : Prop :=
  ∀ k m, db.memos k = some m →
    m.revisions.changed_at ≤ m.verified_at ∧
    m.verified_at ≤ db.current_revision

/-- The single-key effect an engine operation can have on the memo stored
for `k`, relative to the globals of the starting state `db`: leave it
alone; advance `verified_at` to the current revision (only after a
successful durability check, or for a `Derived` memo whose edge walk
completed); or replace it with the re-executed memo (only when shallow
verification failed for it, it has a prior value, and its origin is one
for which deep verification can fail). An absent memo stays absent. -/
def memoTrans (db : DB V) (k : Key) (a b : Option (Memo V)) : Prop :=
  b = a ∨
  (∃ m, a = some m ∧ b = some (mark_as_verified db m) ∧
    (check_durability db m = true ∨ ∃ es, m.revisions.origin = .derived es)) ∨
  (∃ m, a = some m ∧ b = some (execMemo db k (some m)) ∧
    m.verified_at ≠ db.current_revision ∧ check_durability db m = false ∧
    m.value.isSome = true ∧
    m.revisions.origin ≠ .baseInput ∧ m.revisions.origin ≠ .field)

/-- State transition performed by one engine operation: the Revision Clock
and the executor oracle are untouched, an empty contention schedule stays
empty, and each key's memo evolves by `memoTrans`. -/
def DBTrans (db db1 : DB V) : Prop :=
  db1.current_revision = db.current_revision ∧
  db1.last_changed = db.last_changed ∧
  db1.executor = db.executor ∧
  (db.sched = [] → db1.sched = []) ∧
  ∀ k, memoTrans db k (db.memos k) (db1.memos k)

/-- Post-state of a `maybe_changed_after` call settled on the hot path, by
a completed deep verification, or by re-execution: the memo under `key` is
verified at the current revision and the answer compares its `changed_at`
with the queried revision. -/
def hotShape (db1 : DB V) (key : Key) (rev : Revision) (b : Bool) : Prop :=
  ∃ m, db1.memos key = some m ∧ m.verified_at = db1.current_revision ∧
    b = decide (rev < m.revisions.changed_at)

/-- Post-state of a `maybe_changed_after` call that found no memo: the
answer is `true` and the key is still unmapped. -/
def noneShape (db1 : DB V) (key : Key) (b : Bool) : Prop :=
  db1.memos key = none ∧ b = true

/-- Post-state of a `maybe_changed_after` call settled by the
`BaseInput`/`Field` verdict of deep verification: the memo is left exactly
as it was, still not verified at the current revision. -/
def coldInputShape (db1 : DB V) (stack : List Key) (key : Key)
    (rev : Revision) (b : Bool) : Prop :=
  ∃ m, db1.memos key = some m ∧ m.verified_at ≠ db1.current_revision ∧
    check_durability db1 m = false ∧
    (m.revisions.origin = .baseInput ∨ m.revisions.origin = .field) ∧
    key ∉ stack ∧ b = decide (rev < m.revisions.changed_at)

/-- Post-state of a `maybe_changed_after` call that failed deep
verification on a memo with no prior value: the memo is unchanged, the
answer is `true`, and re-running deep verification from this state (with
at least `bound` fuel) fails again without changing the state. -/
def noValueShape (db1 : DB V) (stack : List Key) (key : Key) (b : Bool)
    (bound : Nat) : Prop :=
  ∃ m, db1.memos key = some m ∧ m.verified_at ≠ db1.current_revision ∧
    check_durability db1 m = false ∧ m.value = none ∧ key ∉ stack ∧
    b = true ∧
    ∀ f, bound ≤ f →
      deep_verify_memo f db1 (key :: stack) key m = some (.ok false, db1)

/-- Disjunction of the four post-state shapes a successful
`maybe_changed_after` call can leave behind. -/
def mcaPost (db1 : DB V) (stack : List Key) (key : Key) (rev : Revision)
    (b : Bool) (fuel : Nat) : Prop :=
  hotShape db1 key rev b ∨ noneShape db1 key b ∨
  (coldInputShape db1 stack key rev b ∧ 3 ≤ fuel) ∨
  (∃ bound, bound + 2 ≤ fuel ∧ noValueShape db1 stack key b bound)

/-- Concrete state: a single `BaseInput` memo whose durability check fails
(the durability clock has moved past its `verified_at`). -/
def exInput : DB Nat :=
  { current_revision := 2
    last_changed := fun _ => 2
    memos := fun k =>
      if k = 0 then some ⟨some 7, 1, ⟨2, 0, .baseInput⟩⟩ else none
    executor := fun _ => ⟨0, [], 0⟩
    sched := []
    exec_count := 0 }

/-- The memo stored for key 0 in `exInput`. -/
def exInputMemo : Memo Nat := ⟨some 7, 1, ⟨2, 0, .baseInput⟩⟩

/-- Concrete state: one memo whose `verified_at` lags the current revision
but whose durability check passes, so shallow verification succeeds by
advancing `verified_at`. -/
def exDur : DB Nat :=
  { current_revision := 2
    last_changed := fun _ => 1
    memos := fun k =>
      if k = 0 then some ⟨some 1, 1, ⟨1, 0, .baseInput⟩⟩ else none
    executor := fun _ => ⟨0, [], 0⟩
    sched := []
    exec_count := 0 }

/-- The memo stored for key 0 in `exDur`. -/
def exDurMemo : Memo Nat := ⟨some 1, 1, ⟨1, 0, .baseInput⟩⟩

/-- Concrete state exercising the dependency walk: key 0 is a base input
changed at revision 2, key 1 derives from it; key 2 is a base input
unchanged since revision 1, key 3 derives from it; key 4 is an
untracked-derived memo with no value.  The current revision is 2 and the
durability clock defeats every durability check for memos verified at 1. -/
def exWalk : DB Nat :=
  { current_revision := 2
    last_changed := fun _ => 2
    memos := fun k =>
      if k = 0 then some ⟨some 1, 2, ⟨2, 0, .baseInput⟩⟩
      else if k = 1 then some ⟨some 2, 1, ⟨1, 0, .derived [0]⟩⟩
      else if k = 2 then some ⟨some 1, 2, ⟨1, 0, .baseInput⟩⟩
      else if k = 3 then some ⟨some 2, 1, ⟨1, 0, .derived [2]⟩⟩
      else if k = 4 then some ⟨none, 1, ⟨1, 0, .derivedUntracked []⟩⟩
      else none
    executor := fun _ => ⟨0, [], 0⟩
    sched := []
    exec_count := 0 }

/-- The derived memo stored for key 3 in `exWalk`. -/
def exWalkMemo3 : Memo Nat := ⟨some 2, 1, ⟨1, 0, .derived [2]⟩⟩

/-- The derived memo stored for key 1 in `exWalk`. -/
def exWalkMemo1 : Memo Nat := ⟨some 2, 1, ⟨1, 0, .derived [0]⟩⟩

/-- `exWalk` under a schedule whose first claim attempt is contended. -/
def exCont : DB Nat := { exWalk with sched := [true] }

/-- Post-state of a deep verification of the memo `m` held under a claim
for `key` (so `key` is on `stack`).  A valid verdict leaves the memo
verified at the current revision with its `changed_at` intact, or -- for a
`BaseInput`/`Field` memo -- leaves the state entirely untouched.  A stale
verdict leaves `m` in place, still failing shallow verification, and
re-running the deep verification from the post-state (with at least
`fuel` fuel) fails again without changing the state. -/
def deepPost (db db1 : DB V) (stack : List Key) (key : Key) (m : Memo V)
    (v : Bool) (fuel : Nat) : Prop :=
  if v then
    (∃ m1, db1.memos key = some m1 ∧
      m1.verified_at = db1.current_revision ∧
      m1.revisions.changed_at = m.revisions.changed_at) ∨
    (db1 = db ∧
      (m.revisions.origin = .baseInput ∨ m.revisions.origin = .field) ∧
      m.verified_at ≠ db.current_revision ∧ check_durability db m = false)
  else
    db1.memos key = some m ∧ m.verified_at ≠ db1.current_revision ∧
    check_durability db1 m = false ∧
    ∀ f, fuel ≤ f →
      deep_verify_memo f db1 stack key m = some (.ok false, db1)

-- THEOREMS (no definitions below this line)

theorem shallow_false_parts {db : DB V} {key : Key} {m : Memo V}
    (h : (shallow_verify_memo db key m).1 = false) :
    m.verified_at ≠ db.current_revision ∧ check_durability db m = false := by
  unfold shallow_verify_memo at h
  split at h
  · simp at h
  · split at h
    · simp at h
    · next h1 h2 => exact ⟨h1, by simpa using h2⟩

theorem shallow_of_parts {db : DB V} {key : Key} {m : Memo V}
    (h1 : m.verified_at ≠ db.current_revision)
    (h2 : check_durability db m = false) :
    shallow_verify_memo db key m = (false, db) := by
  unfold shallow_verify_memo
  simp [h1, h2]

theorem shallow_of_verified {db : DB V} {key : Key} {m : Memo V}
    (h1 : m.verified_at = db.current_revision) :
    shallow_verify_memo db key m = (true, db) := by
  unfold shallow_verify_memo
  simp [h1]

theorem shallow_false_eq {db : DB V} {key : Key} {m : Memo V}
    (h : (shallow_verify_memo db key m).1 = false) :
    shallow_verify_memo db key m = (false, db) :=
  shallow_of_parts (shallow_false_parts h).1 (shallow_false_parts h).2

end Salsa

namespace Salsa

variable {V : Type} [DecidableEq V]

/-- C3: shallow verification succeeds exactly when `verified_at` equals the
current revision or `last_changed(memo.durability) ≤ verified_at`; in the
latter case it advances the stored memo's `verified_at` to the current
revision, so an immediately repeated shallow check in the same revision
succeeds via the first disjunct; and shallow verification returning false
does not by itself imply the memo is stale: a concrete state is exhibited
in which it returns false yet deep verification validates the memo. -/
theorem shallow_verify_memo_spec (db : DB V) (key : Key) (memo : Memo V) :
    ((shallow_verify_memo db key memo).1 = true ↔
      (memo.verified_at = db.current_revision ∨
        db.last_changed memo.revisions.durability ≤ memo.verified_at)) ∧
    (memo.verified_at ≠ db.current_revision →
      db.last_changed memo.revisions.durability ≤ memo.verified_at →
      shallow_verify_memo db key memo =
        (true, db.setMemo key (mark_as_verified db memo)) ∧
      (mark_as_verified db memo).verified_at = db.current_revision) ∧
    (∀ db1, db.memos key = some memo →
      shallow_verify_memo db key memo = (true, db1) →
      ∃ m1, db1.memos key = some m1 ∧
        m1.verified_at = db1.current_revision ∧
        shallow_verify_memo db1 key m1 = (true, db1)) ∧
    ((shallow_verify_memo exInput 0 exInputMemo).1 = false ∧
      deep_verify_memo 1 exInput [0] 0 exInputMemo = some (.ok true, exInput)) := by
  refine ⟨?_, ?_, ?_, ?_, ?_⟩
  · unfold shallow_verify_memo check_durability
    by_cases h1 : memo.verified_at = db.current_revision <;>
      by_cases h2 : db.last_changed memo.revisions.durability ≤ memo.verified_at <;>
      simp [h1, h2]
  · intro h1 h2
    refine ⟨?_, rfl⟩
    unfold shallow_verify_memo check_durability
    simp [h1, h2]
  · intro db1 hmem hsh
    by_cases h1 : memo.verified_at = db.current_revision
    · rw [shallow_of_verified h1] at hsh
      obtain ⟨rfl⟩ : db1 = db := by
        simpa using congrArg Prod.snd hsh.symm
      exact ⟨memo, hmem, h1, shallow_of_verified h1⟩
    · by_cases h2 : check_durability db memo = true
      · have he : shallow_verify_memo db key memo =
            (true, db.setMemo key (mark_as_verified db memo)) := by
          unfold shallow_verify_memo
          simp [h1, h2]
        rw [he] at hsh
        obtain ⟨rfl⟩ : db1 = db.setMemo key (mark_as_verified db memo) := by
          simpa using congrArg Prod.snd hsh.symm
        refine ⟨mark_as_verified db memo, ?_, rfl, ?_⟩
        · simp [DB.setMemo]
        · exact shallow_of_verified rfl
      · rw [shallow_of_parts h1 (by simpa using h2)] at hsh
        simp at hsh
  · rfl
  · simp [deep_verify_memo, shallow_verify_memo, check_durability, exInput,
      exInputMemo]

/-- Closed instance of `shallow_verify_memo_spec`: in `exDur` the memo is
not verified at the current revision but passes the durability check, so
shallow verification succeeds and advances `verified_at`. -/
theorem shallow_verify_memo_spec_witness :
    shallow_verify_memo exDur 0 exDurMemo =
      (true, exDur.setMemo 0 (mark_as_verified exDur exDurMemo)) ∧
    (mark_as_verified exDur exDurMemo).verified_at = exDur.current_revision :=
  (shallow_verify_memo_spec exDur 0 exDurMemo).2.1 (by decide) (by decide)

/-- C4: once shallow verification has failed, deep verification's verdict
is decided purely by the memo's origin -- `Assigned` is stale (false),
`BaseInput` and `Field` are valid (true), `DerivedUntracked` is stale
(false) -- leaving the database untouched; the result is the same for
every fuel value, including fuel 1, under which no recursive call (hence
no walk of any dependency edge) is possible. -/
theorem deep_verify_origin_dispatch (fuel : Nat) (db : DB V)
    (stack : List Key) (key : Key) (m : Memo V)
    (hsh : (shallow_verify_memo db key m).1 = false) :
    (∀ p, m.revisions.origin = .assigned p →
      deep_verify_memo (fuel + 1) db stack key m = some (.ok false, db)) ∧
    ((m.revisions.origin = .baseInput ∨ m.revisions.origin = .field) →
      deep_verify_memo (fuel + 1) db stack key m = some (.ok true, db)) ∧
    (∀ es, m.revisions.origin = .derivedUntracked es →
      deep_verify_memo (fuel + 1) db stack key m = some (.ok false, db)) := by
  have he := shallow_false_eq hsh
  refine ⟨?_, ?_, ?_⟩
  · intro p hp
    simp only [deep_verify_memo, he, hp]
  · rintro (hp | hp) <;> simp only [deep_verify_memo, he, hp]
  · intro es hp
    simp only [deep_verify_memo, he, hp]

/-- Closed instance of `deep_verify_origin_dispatch`: in `exInput` shallow
verification fails and the `BaseInput` memo is validated with no state
change. -/
theorem deep_verify_origin_dispatch_witness :
    deep_verify_memo 1 exInput [0] 0 exInputMemo = some (.ok true, exInput) :=
  (deep_verify_origin_dispatch 0 exInput [0] 0 exInputMemo (by decide)).2.1
    (Or.inl rfl)

end Salsa

namespace Salsa

variable {V : Type} [DecidableEq V]

set_option linter.unusedSectionVars false

theorem claim_granted {db : DB V} {stack : List Key} {key : Key}
    (hk : key ∉ stack) (hs : db.sched = []) :
    db.claimAttempt stack key = (.granted, db) := by
  unfold DB.claimAttempt
  simp [hk, hs]

theorem claim_cycle {db : DB V} {stack : List Key} {key : Key}
    (hk : key ∈ stack) :
    db.claimAttempt stack key = (.cycle, db) := by
  unfold DB.claimAttempt
  simp [hk]

theorem mca_none {fuel : Nat} {db : DB V} {stack : List Key} {key : Key}
    {rev : Revision} (h : db.memos key = none) :
    maybe_changed_after (fuel + 1) db stack key rev = some (.ok true, db) := by
  simp only [maybe_changed_after, h]

theorem mca_hot {fuel : Nat} {db db1 : DB V} {stack : List Key} {key : Key}
    {rev : Revision} {memo : Memo V} (hm : db.memos key = some memo)
    (hs : shallow_verify_memo db key memo = (true, db1)) :
    maybe_changed_after (fuel + 1) db stack key rev =
      some (.ok (decide (rev < memo.revisions.changed_at)), db1) := by
  simp only [maybe_changed_after, hm, hs]

theorem mca_cold_step {fuel : Nat} {db : DB V} {stack : List Key} {key : Key}
    {rev : Revision} {memo : Memo V} (hm : db.memos key = some memo)
    (hs : (shallow_verify_memo db key memo).1 = false) :
    maybe_changed_after (fuel + 1) db stack key rev =
      match maybe_changed_after_cold fuel db stack key rev with
      | none => none
      | some (.ok c, db2) => some (.ok c, db2)
      | some (.cycle, db2) => some (.cycle, db2)
      | some (.retry, db2) => maybe_changed_after fuel db2 stack key rev := by
  simp only [maybe_changed_after, hm, shallow_false_eq hs]

theorem cold_granted {fuel : Nat} {db : DB V} {stack : List Key} {key : Key}
    {rev : Revision} (hk : key ∉ stack) (hsched : db.sched = []) :
    maybe_changed_after_cold (fuel + 1) db stack key rev =
      match db.memos key with
      | none => some (.ok true, db)
      | some old_memo =>
        match deep_verify_memo fuel db (key :: stack) key old_memo with
        | none => none
        | some (.cycle, db2) => some (.cycle, db2)
        | some (.ok true, db2) =>
          some (.ok (decide (rev < old_memo.revisions.changed_at)), db2)
        | some (.ok false, db2) =>
          if old_memo.value.isSome then
            let r := execute db2 key (some old_memo)
            some (.ok (decide (rev < r.1.changed_at)), r.2)
          else some (.ok true, db2) := by
  simp only [maybe_changed_after_cold, claim_granted hk hsched]

theorem deep_shallow_true {fuel : Nat} {db db1 : DB V} {stack : List Key}
    {key : Key} {m : Memo V} (hs : shallow_verify_memo db key m = (true, db1)) :
    deep_verify_memo (fuel + 1) db stack key m = some (.ok true, db1) := by
  simp only [deep_verify_memo, hs]

theorem deep_derived_step {fuel : Nat} {db : DB V} {stack : List Key}
    {key : Key} {m : Memo V} {es : List Key}
    (hs : (shallow_verify_memo db key m).1 = false)
    (ho : m.revisions.origin = .derived es) :
    deep_verify_memo (fuel + 1) db stack key m =
      match verify_edges fuel db stack m.verified_at es with
      | none => none
      | some (.cycle, db2) => some (.cycle, db2)
      | some (.ok true, db2) => some (.ok false, db2)
      | some (.ok false, db2) =>
        some (.ok true, db2.setMemo key (mark_as_verified db2 m)) := by
  simp only [deep_verify_memo, shallow_false_eq hs, ho]

theorem verify_edges_nil {fuel : Nat} {db : DB V} {stack : List Key}
    {lva : Revision} :
    verify_edges (fuel + 1) db stack lva [] = some (.ok false, db) := by
  simp only [verify_edges]

theorem verify_edges_cons {fuel : Nat} {db : DB V} {stack : List Key}
    {lva : Revision} {input : Key} {rest : List Key} :
    verify_edges (fuel + 1) db stack lva (input :: rest) =
      match maybe_changed_after fuel db stack input lva with
      | none => none
      | some (.cycle, db1) => some (.cycle, db1)
      | some (.ok true, db1) => some (.ok true, db1)
      | some (.ok false, db1) => verify_edges fuel db1 stack lva rest := by
  simp only [verify_edges]

end Salsa

namespace Salsa

variable {V : Type} [DecidableEq V]

set_option linter.unusedSectionVars false

/-- C1: whenever `maybe_changed_after(key, revision)` finds a memo and is
settled by verification or recomputation, the returned boolean is
`memo.changed_at > revision` for the relevant memo: the shallow-verified
memo on the hot path, the deep-verified old memo on the cold path, and the
freshly recomputed (and installed) memo when the query was re-executed. -/
theorem maybe_changed_after_answer (fuel : Nat) (db : DB V)
    (stack : List Key) (key : Key) (rev : Revision) (memo : Memo V) :
    (∀ db1, db.memos key = some memo →
      shallow_verify_memo db key memo = (true, db1) →
      maybe_changed_after (fuel + 1) db stack key rev =
        some (.ok (decide (rev < memo.revisions.changed_at)), db1)) ∧
    (∀ db2, db.memos key = some memo →
      (shallow_verify_memo db key memo).1 = false →
      key ∉ stack → db.sched = [] →
      deep_verify_memo fuel db (key :: stack) key memo = some (.ok true, db2) →
      maybe_changed_after (fuel + 2) db stack key rev =
        some (.ok (decide (rev < memo.revisions.changed_at)), db2)) ∧
    (∀ db2, db.memos key = some memo →
      (shallow_verify_memo db key memo).1 = false →
      key ∉ stack → db.sched = [] →
      deep_verify_memo fuel db (key :: stack) key memo = some (.ok false, db2) →
      memo.value.isSome = true →
      maybe_changed_after (fuel + 2) db stack key rev =
        some (.ok (decide (rev <
            (execMemo db2 key (some memo)).revisions.changed_at)),
          (execute db2 key (some memo)).2) ∧
      (execute db2 key (some memo)).2.memos key =
        some (execMemo db2 key (some memo))) := by
  refine ⟨?_, ?_, ?_⟩
  · intro db1 hm hs
    exact mca_hot hm hs
  · intro db2 hm hs hk hsched hd
    rw [show fuel + 2 = (fuel + 1) + 1 from rfl,
      mca_cold_step hm hs, cold_granted hk hsched]
    simp only [hm, hd]
  · intro db2 hm hs hk hsched hd hv
    constructor
    · rw [show fuel + 2 = (fuel + 1) + 1 from rfl,
        mca_cold_step hm hs, cold_granted hk hsched]
      simp only [hm, hd, hv, if_true]
      rfl
    · simp [execute, DB.setMemo]

/-- Closed instance of `maybe_changed_after_answer`: the hot path in
`exDur` answers with the shallow-verified memo's `changed_at`. -/
theorem maybe_changed_after_answer_witness :
    maybe_changed_after 3 exDur [] 0 0 =
      some (.ok (decide (0 < exDurMemo.revisions.changed_at)),
        exDur.setMemo 0 (mark_as_verified exDur exDurMemo)) :=
  (maybe_changed_after_answer 2 exDur [] 0 0 exDurMemo).1
    (exDur.setMemo 0 (mark_as_verified exDur exDurMemo)) rfl rfl

theorem verify_edges_append {stack : List Key} {lva : Revision}
    (pre : List Key) :
    ∀ fuel (db db1 : DB V) rest,
      verify_edges fuel db stack lva pre = some (.ok false, db1) →
      verify_edges fuel db stack lva (pre ++ rest) =
        verify_edges (fuel - pre.length) db1 stack lva rest := by
  induction pre with
  | nil =>
    intro fuel db db1 rest h
    cases fuel with
    | zero => simp [verify_edges] at h
    | succ f =>
      rw [verify_edges_nil] at h
      obtain ⟨rfl⟩ : db = db1 := by simpa using h
      simp
  | cons e pre ih =>
    intro fuel db db1 rest h
    cases fuel with
    | zero => simp [verify_edges] at h
    | succ f =>
      rw [verify_edges_cons] at h
      rw [List.cons_append, verify_edges_cons]
      cases hm : maybe_changed_after f db stack e lva with
      | none => rw [hm] at h; simp at h
      | some p =>
        obtain ⟨o, dbm⟩ := p
        rw [hm] at h
        cases o with
        | cycle => simp at h
        | ok c =>
          cases c with
          | true => simp at h
          | false =>
            simpa [Nat.succ_sub_succ] using ih f dbm db1 rest h

end Salsa

namespace Salsa

variable {V : Type} [DecidableEq V]

set_option linter.unusedSectionVars false

/-- C2: the deep-verification walk visits the recorded edges in exactly
their recorded order, calling `maybe_changed_after(e, last_verified_at)`
on each (see `verify_edges_cons`).  If walking a prefix `pre` reports no
change and the next edge `e` reports a change, the walk stops there with
the stale verdict and the state reached after `e`, for every choice of
later edges `post` -- no later edge is queried.  If the full walk
completes with no change, the memo is marked verified at the current
revision and the verdict is valid. -/
theorem deep_verify_walk_order (fuel : Nat) (db : DB V) (stack : List Key)
    (key : Key) (m : Memo V) (lva : Revision) (pre post : List Key)
    (e : Key) :
    (∀ db1 db2, verify_edges fuel db stack lva pre = some (.ok false, db1) →
      maybe_changed_after (fuel - pre.length - 1) db1 stack e lva =
        some (.ok true, db2) →
      pre.length < fuel →
      verify_edges fuel db stack lva (pre ++ e :: post) =
        some (.ok true, db2)) ∧
    (∀ es db2, (shallow_verify_memo db key m).1 = false →
      m.revisions.origin = .derived es →
      verify_edges fuel db stack m.verified_at es = some (.ok false, db2) →
      deep_verify_memo (fuel + 1) db stack key m =
        some (.ok true, db2.setMemo key (mark_as_verified db2 m))) := by
  constructor
  · intro db1 db2 hpre he hlen
    rw [verify_edges_append pre fuel db db1 (e :: post) hpre]
    obtain ⟨g, hg⟩ : ∃ g, fuel - pre.length = g + 1 :=
      ⟨fuel - pre.length - 1, by omega⟩
    rw [hg] at he ⊢
    rw [Nat.add_sub_cancel] at he
    rw [verify_edges_cons, he]
  · intro es db2 hs ho hes
    rw [deep_derived_step hs ho, hes]

/-- Closed instance of `deep_verify_walk_order`: in `exWalk`, edge 0 of a
walk reports a change so the later edges 5 and 6 are not queried, and the
full unchanged walk of key 3's edges marks the memo verified. -/
theorem deep_verify_walk_order_witness :
    verify_edges 2 exWalk [1] 1 ([] ++ 0 :: [5, 6]) =
      some (.ok true, exWalk) ∧
    deep_verify_memo 3 exWalk [3] 3 exWalkMemo3 =
      some (.ok true, exWalk.setMemo 3 (mark_as_verified exWalk exWalkMemo3)) := by
  constructor
  · exact (deep_verify_walk_order 2 exWalk [1] 1 exWalkMemo1 1 [] [5, 6] 0).1
      exWalk exWalk (by rw [verify_edges_nil])
      (by simp [maybe_changed_after, shallow_verify_memo, exWalk])
      (by decide)
  · exact (deep_verify_walk_order 2 exWalk [3] 3 exWalkMemo3 1 [] [] 2).2
      [2] exWalk (by decide) rfl
      (by simp [verify_edges, maybe_changed_after, shallow_verify_memo,
        check_durability, exWalk, exWalkMemo3])

/-- C5: re-execution backdates: when the old memo's value equals the newly
computed value, the new memo's `changed_at` is the old `changed_at` rather
than the current revision; when the values differ (or the old memo has no
value) `changed_at` is the current revision; and the new memo's
`verified_at` is always the current revision.  The stamped value returned
to the cold path carries exactly the new memo's `changed_at`, and the new
memo is what `execute` installs for the key. -/
theorem execute_backdates (db : DB V) (key : Key) (old : Memo V) :
    (∀ ov, old.value = some ov → (db.executor key).value = ov →
      (execMemo db key (some old)).revisions.changed_at =
        old.revisions.changed_at) ∧
    (∀ ov, old.value = some ov → (db.executor key).value ≠ ov →
      (execMemo db key (some old)).revisions.changed_at =
        db.current_revision) ∧
    (old.value = none →
      (execMemo db key (some old)).revisions.changed_at =
        db.current_revision) ∧
    ((execMemo db key (some old)).verified_at = db.current_revision) ∧
    ((execute db key (some old)).1.changed_at =
      (execMemo db key (some old)).revisions.changed_at) ∧
    ((execute db key (some old)).2.memos key =
      some (execMemo db key (some old))) := by
  refine ⟨?_, ?_, ?_, rfl, rfl, ?_⟩
  · intro ov hov hval
    simp [execMemo, hov, hval]
  · intro ov hov hval
    simp [execMemo, hov, hval]
  · intro hov
    simp [execMemo, hov]
  · simp [execute, DB.setMemo]

/-- Closed instance of `execute_backdates`: re-executing key 1 of `exWalk`
with an oracle that reproduces the old value 2 backdates `changed_at` to
1, while the differing value at key 0 stamps the current revision 2. -/
theorem execute_backdates_witness :
    (execMemo { exWalk with executor := fun _ => ⟨2, [0], 0⟩ } 1
        (some exWalkMemo1)).revisions.changed_at =
      exWalkMemo1.revisions.changed_at ∧
    (execMemo exWalk 1 (some exWalkMemo1)).revisions.changed_at =
      exWalk.current_revision :=
  ⟨(execute_backdates { exWalk with executor := fun _ => ⟨2, [0], 0⟩ } 1
      exWalkMemo1).1 2 rfl rfl,
    (execute_backdates exWalk 1 exWalkMemo1).2.1 2 rfl (by decide)⟩

end Salsa

namespace Salsa

variable {V : Type} [DecidableEq V]

set_option linter.unusedSectionVars false

/-- C6: `maybe_changed_after` answers `true` unconditionally whenever there
is no prior result to compare against: when no memo exists on the hot-path
read; when no memo exists on the read performed after a successful claim;
and when deep verification fails on a memo without a value, in which case
the cold path returns `true` in exactly the state deep verification left
behind -- the Query Executor is not invoked for the key. -/
theorem maybe_changed_after_no_prior (fuel : Nat) (db : DB V)
    (stack : List Key) (key : Key) (rev : Revision) :
    (db.memos key = none →
      maybe_changed_after (fuel + 1) db stack key rev = some (.ok true, db)) ∧
    (key ∉ stack → db.sched = [] → db.memos key = none →
      maybe_changed_after_cold (fuel + 1) db stack key rev =
        some (.ok true, db)) ∧
    (∀ m db2, key ∉ stack → db.sched = [] → db.memos key = some m →
      m.value = none →
      deep_verify_memo fuel db (key :: stack) key m = some (.ok false, db2) →
      maybe_changed_after_cold (fuel + 1) db stack key rev =
        some (.ok true, db2)) := by
  refine ⟨?_, ?_, ?_⟩
  · intro h
    exact mca_none h
  · intro hk hsched h
    rw [cold_granted hk hsched, h]
  · intro m db2 hk hsched hm hv hd
    rw [cold_granted hk hsched]
    simp only [hm, hd, hv, Option.isSome_none, Bool.false_eq_true, if_false]

/-- Closed instance of `maybe_changed_after_no_prior`: in `exWalk` the
unmapped key 9 answers `true` on both paths, and the valueless
untracked-derived memo at key 4 fails deep verification and answers `true`
without re-execution. -/
theorem maybe_changed_after_no_prior_witness :
    maybe_changed_after 1 exWalk [] 9 0 = some (.ok true, exWalk) ∧
    maybe_changed_after_cold 1 exWalk [] 9 0 = some (.ok true, exWalk) ∧
    maybe_changed_after_cold 2 exWalk [] 4 0 = some (.ok true, exWalk) := by
  refine ⟨(maybe_changed_after_no_prior 0 exWalk [] 9 0).1 rfl,
    (maybe_changed_after_no_prior 0 exWalk [] 9 0).2.1 (by decide) rfl rfl,
    (maybe_changed_after_no_prior 1 exWalk [] 4 0).2.2
      ⟨none, 1, ⟨1, 0, .derivedUntracked []⟩⟩ exWalk (by decide) rfl rfl rfl
      ?_⟩
  simp [deep_verify_memo, shallow_verify_memo, check_durability, exWalk]

/-- C7: the two causes of claim failure on the cold path are handled
differently.  A cycle (the requesting call chain already holds `key`)
fails fast: the cold path reports the cycle signal and the full call
surfaces it at once, with the state (including the remaining contention
schedule) untouched and the same result for every fuel value -- it is
never retried.  Contention (an unrelated caller holds the claim, here the
head of the schedule) makes the cold path report a retry, and the full
call loops back to the top with the next schedule. -/
theorem claim_failure_modes (fuel : Nat) (db : DB V) (stack : List Key)
    (key : Key) (rev : Revision) (m : Memo V) :
    (key ∈ stack →
      maybe_changed_after_cold (fuel + 1) db stack key rev =
        some (.cycle, db) ∧
      (db.memos key = some m → (shallow_verify_memo db key m).1 = false →
        maybe_changed_after (fuel + 2) db stack key rev =
          some (.cycle, db))) ∧
    (∀ rest, key ∉ stack → db.sched = true :: rest →
      maybe_changed_after_cold (fuel + 1) db stack key rev =
        some (.retry, { db with sched := rest }) ∧
      (db.memos key = some m → (shallow_verify_memo db key m).1 = false →
        maybe_changed_after (fuel + 2) db stack key rev =
          maybe_changed_after (fuel + 1) { db with sched := rest } stack key
            rev)) := by
  constructor
  · intro hk
    have hcold : maybe_changed_after_cold (fuel + 1) db stack key rev =
        some (.cycle, db) := by
      simp only [maybe_changed_after_cold, claim_cycle hk]
    refine ⟨hcold, ?_⟩
    intro hm hs
    rw [show fuel + 2 = (fuel + 1) + 1 from rfl, mca_cold_step hm hs, hcold]
  · intro rest hk hsched
    have hclaim : db.claimAttempt stack key =
        (.contention, { db with sched := rest }) := by
      unfold DB.claimAttempt
      simp [hk, hsched]
    have hcold : maybe_changed_after_cold (fuel + 1) db stack key rev =
        some (.retry, { db with sched := rest }) := by
      simp only [maybe_changed_after_cold, hclaim]
    refine ⟨hcold, ?_⟩
    intro hm hs
    rw [show fuel + 2 = (fuel + 1) + 1 from rfl, mca_cold_step hm hs, hcold]

/-- Closed instance of `claim_failure_modes`: key 1 of `exWalk` inside its
own call chain fails with the cycle signal, and under the contended
schedule of `exCont` the call retries from the top with the next
schedule. -/
theorem claim_failure_modes_witness :
    maybe_changed_after 4 exWalk [1] 1 0 = some (.cycle, exWalk) ∧
    maybe_changed_after 4 exCont [] 1 0 =
      maybe_changed_after 3 { exCont with sched := [] } [] 1 0 :=
  ⟨((claim_failure_modes 2 exWalk [1] 1 0 exWalkMemo1).1 (by decide)).2 rfl
      (by decide),
    ((claim_failure_modes 2 exCont [] 1 0 exWalkMemo1).2 [] (by decide)
      rfl).2 rfl (by decide)⟩

end Salsa

namespace Salsa

variable {V : Type} [DecidableEq V]

set_option linter.unusedSectionVars false

theorem mark_of_current {db : DB V} {m : Memo V}
    (h : m.verified_at = db.current_revision) :
    mark_as_verified db m = m := by
  cases m with
  | mk v ver r => simp [mark_as_verified] at h ⊢; exact h.symm

theorem mark_congr {db db2 : DB V} (m : Memo V)
    (hc : db2.current_revision = db.current_revision) :
    mark_as_verified db2 m = mark_as_verified db m := by
  simp [mark_as_verified, hc]

theorem execMemo_congr {db db2 : DB V} (k : Key) (o : Option (Memo V))
    (hc : db2.current_revision = db.current_revision)
    (he : db2.executor = db.executor) :
    execMemo db2 k o = execMemo db k o := by
  unfold execMemo
  rw [hc, he]

theorem execMemo_verified (db : DB V) (k : Key) (o : Option (Memo V)) :
    (execMemo db k o).verified_at = db.current_revision := rfl

theorem check_durability_congr {db db2 : DB V} (m : Memo V)
    (hl : db2.last_changed = db.last_changed) :
    check_durability db2 m = check_durability db m := by
  unfold check_durability
  rw [hl]

theorem memoTrans_refl (db : DB V) (k : Key) (a : Option (Memo V)) :
    memoTrans db k a a := Or.inl rfl

theorem DBTrans_refl (db : DB V) : DBTrans db db :=
  ⟨rfl, rfl, rfl, fun h => h, fun k => memoTrans_refl db k _⟩

theorem memoTrans_comp {db db2 : DB V} {k : Key}
    {a b c : Option (Memo V)}
    (hc : db2.current_revision = db.current_revision)
    (hl : db2.last_changed = db.last_changed)
    (he : db2.executor = db.executor)
    (h1 : memoTrans db k a b) (h2 : memoTrans db2 k b c) :
    memoTrans db k a c := by
  rcases h2 with rfl | ⟨m2, rfl, rfl, hg2⟩ | ⟨m2, rfl, rfl, hv2, hd2, hs2, ho2, ho2f⟩
  · exact h1
  · -- second step marks m2
    rcases h1 with rfl | ⟨m, hma, hmb, hg⟩ | ⟨m, hma, hmb, hv, hd, hs, ho, hof⟩
    · -- first step identity: transport the mark step to db
      refine Or.inr (Or.inl ⟨m2, rfl, ?_, ?_⟩)
      · rw [mark_congr m2 hc]
      · rcases hg2 with hg2 | hg2
        · exact Or.inl (by rw [check_durability_congr m2 hl] at hg2; exact hg2)
        · exact Or.inr hg2
    · -- first step was a mark: marking again is the identity
      cases hmb
      have : mark_as_verified db2 (mark_as_verified db m) =
          mark_as_verified db m := by
        rw [mark_congr _ hc]
        exact mark_of_current rfl
      rw [this]
      exact Or.inr (Or.inl ⟨m, hma, rfl, hg⟩)
    · -- first step was an exec: marking the exec'd memo is the identity
      cases hmb
      have : mark_as_verified db2 (execMemo db k (some m)) =
          execMemo db k (some m) := by
        rw [mark_congr _ hc]
        exact mark_of_current (execMemo_verified db k (some m))
      rw [this]
      exact Or.inr (Or.inr ⟨m, hma, rfl, hv, hd, hs, ho, hof⟩)
  · -- second step execs m2: impossible after a mark or an exec, transportable after id
    rcases h1 with rfl | ⟨m, hma, hmb, hg⟩ | ⟨m, hma, hmb, hv, hd, hs, ho, hof⟩
    · refine Or.inr (Or.inr ⟨m2, rfl, ?_, ?_, ?_, hs2, ho2, ho2f⟩)
      · rw [execMemo_congr k (some m2) hc he]
      · rw [hc] at hv2; exact hv2
      · rw [check_durability_congr m2 hl] at hd2; exact hd2
    · cases hmb
      exfalso
      apply hv2
      show (mark_as_verified db m).verified_at = db2.current_revision
      rw [hc]
      rfl
    · cases hmb
      exfalso
      apply hv2
      show (execMemo db k (some m)).verified_at = db2.current_revision
      rw [hc]
      rfl

theorem DBTrans_comp {db db2 db3 : DB V}
    (h1 : DBTrans db db2) (h2 : DBTrans db2 db3) : DBTrans db db3 := by
  obtain ⟨hc1, hl1, he1, hs1, hm1⟩ := h1
  obtain ⟨hc2, hl2, he2, hs2, hm2⟩ := h2
  exact ⟨hc2.trans hc1, hl2.trans hl1, he2.trans he1,
    fun h => hs2 (hs1 h),
    fun k => memoTrans_comp hc1 hl1 he1 (hm1 k) (hm2 k)⟩

end Salsa

namespace Salsa

variable {V : Type} [DecidableEq V]

set_option linter.unusedSectionVars false

theorem DBTrans_setMark {db : DB V} {key : Key} {m : Memo V}
    (hm : db.memos key = some m)
    (hg : check_durability db m = true ∨
      ∃ es, m.revisions.origin = .derived es) :
    DBTrans db (db.setMemo key (mark_as_verified db m)) := by
  refine ⟨rfl, rfl, rfl, fun h => h, fun k => ?_⟩
  by_cases hk : k = key
  · subst hk
    exact Or.inr (Or.inl ⟨m, hm, by simp [DB.setMemo], hg⟩)
  · exact Or.inl (by simp [DB.setMemo, hk])

theorem DBTrans_shallow {db db1 : DB V} {key : Key} {m : Memo V} {b : Bool}
    (hm : db.memos key = some m)
    (hs : shallow_verify_memo db key m = (b, db1)) : DBTrans db db1 := by
  unfold shallow_verify_memo at hs
  split at hs
  · cases hs
    exact DBTrans_refl db
  · split at hs
    · next hdur =>
      cases hs
      exact DBTrans_setMark hm (Or.inl hdur)
    · cases hs
      exact DBTrans_refl db

theorem DBTrans_claim {db db1 : DB V} {stack : List Key} {key : Key}
    {r : ClaimResult} (h : db.claimAttempt stack key = (r, db1)) :
    DBTrans db db1 := by
  unfold DB.claimAttempt at h
  split at h
  · cases h
    exact DBTrans_refl db
  · split at h
    · cases h
      exact DBTrans_refl db
    · next c rest hsched =>
      cases h
      refine ⟨rfl, rfl, rfl, fun he => ?_, fun k => memoTrans_refl db k _⟩
      rw [he] at hsched
      cases hsched

theorem DBTrans_mark_after {db db2 : DB V} {key : Key} {old : Memo V}
    (hT : DBTrans db db2) (hm : db.memos key = some old)
    (hg : check_durability db old = true ∨
      ∃ es, old.revisions.origin = .derived es) :
    DBTrans db (db2.setMemo key (mark_as_verified db2 old)) := by
  obtain ⟨hc, hl, he, hs, hmt⟩ := hT
  refine ⟨hc, hl, he, hs, fun k => ?_⟩
  by_cases hk : k = key
  · subst hk
    refine Or.inr (Or.inl ⟨old, hm, ?_, hg⟩)
    simp [DB.setMemo, mark_congr old hc]
  · have : (db2.setMemo key (mark_as_verified db2 old)).memos k =
        db2.memos k := by simp [DB.setMemo, hk]
    rw [this]
    exact hmt k

theorem DBTrans_exec_after {db db2 : DB V} {key : Key} {old : Memo V}
    (hT : DBTrans db db2) (hm : db.memos key = some old)
    (h1 : old.verified_at ≠ db.current_revision)
    (h2 : check_durability db old = false)
    (h3 : old.value.isSome = true)
    (h4 : old.revisions.origin ≠ .baseInput)
    (h5 : old.revisions.origin ≠ .field) :
    DBTrans db (execute db2 key (some old)).2 := by
  obtain ⟨hc, hl, he, hs, hmt⟩ := hT
  refine ⟨hc, hl, he, hs, fun k => ?_⟩
  by_cases hk : k = key
  · subst hk
    refine Or.inr (Or.inr ⟨old, hm, ?_, h1, h2, h3, h4, h5⟩)
    have hx : execMemo db2 k (some old) = execMemo db k (some old) :=
      execMemo_congr _ (some old) hc he
    simp [execute, DB.setMemo, hx]
  · have : (execute db2 key (some old)).2.memos k = db2.memos k := by
      simp [execute, DB.setMemo, hk]
    rw [this]
    exact hmt k

theorem deep_false_facts {fuel : Nat} {db db2 : DB V} {stack : List Key}
    {key : Key} {m : Memo V}
    (h : deep_verify_memo fuel db stack key m = some (.ok false, db2)) :
    (shallow_verify_memo db key m).1 = false ∧
    m.revisions.origin ≠ .baseInput ∧ m.revisions.origin ≠ .field := by
  cases fuel with
  | zero => simp [deep_verify_memo] at h
  | succ f =>
    simp only [deep_verify_memo] at h
    cases hs : shallow_verify_memo db key m with
    | mk b dbs =>
      cases b with
      | true => rw [hs] at h; simp at h
      | false =>
        rw [hs] at h
        refine ⟨by simp [hs], ?_, ?_⟩ <;>
          cases ho : m.revisions.origin <;> rw [ho] at h <;> simp_all

end Salsa

namespace Salsa

variable {V : Type} [DecidableEq V]

set_option linter.unusedSectionVars false

theorem mca_cold_none {fuel : Nat} {db : DB V} {stack : List Key}
    {key : Key} {rev : Revision} {memo : Memo V}
    (hm : db.memos key = some memo)
    (hs : (shallow_verify_memo db key memo).1 = false)
    (hc : maybe_changed_after_cold fuel db stack key rev = none) :
    maybe_changed_after (fuel + 1) db stack key rev = none := by
  rw [mca_cold_step hm hs, hc]

theorem mca_cold_ok {fuel : Nat} {db db2 : DB V} {stack : List Key}
    {key : Key} {rev : Revision} {memo : Memo V} {c : Bool}
    (hm : db.memos key = some memo)
    (hs : (shallow_verify_memo db key memo).1 = false)
    (hc : maybe_changed_after_cold fuel db stack key rev =
      some (.ok c, db2)) :
    maybe_changed_after (fuel + 1) db stack key rev = some (.ok c, db2) := by
  rw [mca_cold_step hm hs, hc]

theorem mca_cold_cycle {fuel : Nat} {db db2 : DB V} {stack : List Key}
    {key : Key} {rev : Revision} {memo : Memo V}
    (hm : db.memos key = some memo)
    (hs : (shallow_verify_memo db key memo).1 = false)
    (hc : maybe_changed_after_cold fuel db stack key rev =
      some (.cycle, db2)) :
    maybe_changed_after (fuel + 1) db stack key rev = some (.cycle, db2) := by
  rw [mca_cold_step hm hs, hc]

theorem mca_cold_retry {fuel : Nat} {db db2 : DB V} {stack : List Key}
    {key : Key} {rev : Revision} {memo : Memo V}
    (hm : db.memos key = some memo)
    (hs : (shallow_verify_memo db key memo).1 = false)
    (hc : maybe_changed_after_cold fuel db stack key rev =
      some (.retry, db2)) :
    maybe_changed_after (fuel + 1) db stack key rev =
      maybe_changed_after fuel db2 stack key rev := by
  rw [mca_cold_step hm hs, hc]

theorem cold_deep_none {fuel : Nat} {db : DB V} {stack : List Key}
    {key : Key} {rev : Revision} {m : Memo V}
    (hk : key ∉ stack) (hsched : db.sched = [])
    (hm : db.memos key = some m)
    (hd : deep_verify_memo fuel db (key :: stack) key m = none) :
    maybe_changed_after_cold (fuel + 1) db stack key rev = none := by
  rw [cold_granted hk hsched]
  simp only [hm, hd]

theorem cold_deep_true {fuel : Nat} {db db2 : DB V} {stack : List Key}
    {key : Key} {rev : Revision} {m : Memo V}
    (hk : key ∉ stack) (hsched : db.sched = [])
    (hm : db.memos key = some m)
    (hd : deep_verify_memo fuel db (key :: stack) key m =
      some (.ok true, db2)) :
    maybe_changed_after_cold (fuel + 1) db stack key rev =
      some (.ok (decide (rev < m.revisions.changed_at)), db2) := by
  rw [cold_granted hk hsched]
  simp only [hm, hd]

theorem cold_deep_cycle {fuel : Nat} {db db2 : DB V} {stack : List Key}
    {key : Key} {rev : Revision} {m : Memo V}
    (hk : key ∉ stack) (hsched : db.sched = [])
    (hm : db.memos key = some m)
    (hd : deep_verify_memo fuel db (key :: stack) key m =
      some (.cycle, db2)) :
    maybe_changed_after_cold (fuel + 1) db stack key rev =
      some (.cycle, db2) := by
  rw [cold_granted hk hsched]
  simp only [hm, hd]

theorem cold_deep_false_some {fuel : Nat} {db db2 : DB V} {stack : List Key}
    {key : Key} {rev : Revision} {m : Memo V}
    (hk : key ∉ stack) (hsched : db.sched = [])
    (hm : db.memos key = some m)
    (hd : deep_verify_memo fuel db (key :: stack) key m =
      some (.ok false, db2))
    (hv : m.value.isSome = true) :
    maybe_changed_after_cold (fuel + 1) db stack key rev =
      some (.ok (decide (rev <
          (execMemo db2 key (some m)).revisions.changed_at)),
        (execute db2 key (some m)).2) := by
  rw [cold_granted hk hsched]
  simp only [hm, hd, hv, if_true]
  rfl

theorem cold_deep_false_none {fuel : Nat} {db db2 : DB V} {stack : List Key}
    {key : Key} {rev : Revision} {m : Memo V}
    (hk : key ∉ stack) (hsched : db.sched = [])
    (hm : db.memos key = some m)
    (hd : deep_verify_memo fuel db (key :: stack) key m =
      some (.ok false, db2))
    (hv : m.value.isSome = false) :
    maybe_changed_after_cold (fuel + 1) db stack key rev =
      some (.ok true, db2) := by
  rw [cold_granted hk hsched]
  simp only [hm, hd, hv, Bool.false_eq_true, if_false]

theorem cold_none {fuel : Nat} {db : DB V} {stack : List Key} {key : Key}
    {rev : Revision} (hk : key ∉ stack) (hsched : db.sched = [])
    (hm : db.memos key = none) :
    maybe_changed_after_cold (fuel + 1) db stack key rev =
      some (.ok true, db) := by
  rw [cold_granted hk hsched, hm]

theorem deep_walk_none {fuel : Nat} {db : DB V} {stack : List Key}
    {key : Key} {m : Memo V} {es : List Key}
    (hs : (shallow_verify_memo db key m).1 = false)
    (ho : m.revisions.origin = .derived es)
    (hw : verify_edges fuel db stack m.verified_at es = none) :
    deep_verify_memo (fuel + 1) db stack key m = none := by
  rw [deep_derived_step hs ho, hw]

theorem deep_walk_changed {fuel : Nat} {db db2 : DB V} {stack : List Key}
    {key : Key} {m : Memo V} {es : List Key}
    (hs : (shallow_verify_memo db key m).1 = false)
    (ho : m.revisions.origin = .derived es)
    (hw : verify_edges fuel db stack m.verified_at es =
      some (.ok true, db2)) :
    deep_verify_memo (fuel + 1) db stack key m = some (.ok false, db2) := by
  rw [deep_derived_step hs ho, hw]

theorem deep_walk_clean {fuel : Nat} {db db2 : DB V} {stack : List Key}
    {key : Key} {m : Memo V} {es : List Key}
    (hs : (shallow_verify_memo db key m).1 = false)
    (ho : m.revisions.origin = .derived es)
    (hw : verify_edges fuel db stack m.verified_at es =
      some (.ok false, db2)) :
    deep_verify_memo (fuel + 1) db stack key m =
      some (.ok true, db2.setMemo key (mark_as_verified db2 m)) := by
  rw [deep_derived_step hs ho, hw]

theorem deep_walk_cycle {fuel : Nat} {db db2 : DB V} {stack : List Key}
    {key : Key} {m : Memo V} {es : List Key}
    (hs : (shallow_verify_memo db key m).1 = false)
    (ho : m.revisions.origin = .derived es)
    (hw : verify_edges fuel db stack m.verified_at es =
      some (.cycle, db2)) :
    deep_verify_memo (fuel + 1) db stack key m = some (.cycle, db2) := by
  rw [deep_derived_step hs ho, hw]

theorem edges_none {fuel : Nat} {db : DB V} {stack : List Key}
    {lva : Revision} {e : Key} {rest : List Key}
    (h : maybe_changed_after fuel db stack e lva = none) :
    verify_edges (fuel + 1) db stack lva (e :: rest) = none := by
  rw [verify_edges_cons, h]

theorem edges_changed {fuel : Nat} {db db1 : DB V} {stack : List Key}
    {lva : Revision} {e : Key} {rest : List Key}
    (h : maybe_changed_after fuel db stack e lva = some (.ok true, db1)) :
    verify_edges (fuel + 1) db stack lva (e :: rest) =
      some (.ok true, db1) := by
  rw [verify_edges_cons, h]

theorem edges_unchanged {fuel : Nat} {db db1 : DB V} {stack : List Key}
    {lva : Revision} {e : Key} {rest : List Key}
    (h : maybe_changed_after fuel db stack e lva = some (.ok false, db1)) :
    verify_edges (fuel + 1) db stack lva (e :: rest) =
      verify_edges fuel db1 stack lva rest := by
  rw [verify_edges_cons, h]

theorem edges_cycle {fuel : Nat} {db db1 : DB V} {stack : List Key}
    {lva : Revision} {e : Key} {rest : List Key}
    (h : maybe_changed_after fuel db stack e lva = some (.cycle, db1)) :
    verify_edges (fuel + 1) db stack lva (e :: rest) =
      some (.cycle, db1) := by
  rw [verify_edges_cons, h]

end Salsa

namespace Salsa

variable {V : Type} [DecidableEq V]

set_option linter.unusedSectionVars false

theorem claimAttempt_fields {db dbg : DB V} {stack : List Key} {key : Key}
    {r : ClaimResult} (h : db.claimAttempt stack key = (r, dbg)) :
    dbg.memos = db.memos ∧ dbg.current_revision = db.current_revision ∧
    dbg.last_changed = db.last_changed ∧ dbg.executor = db.executor := by
  unfold DB.claimAttempt at h
  split at h
  · cases h
    exact ⟨rfl, rfl, rfl, rfl⟩
  · split at h
    · cases h
      exact ⟨rfl, rfl, rfl, rfl⟩
    · cases h
      exact ⟨rfl, rfl, rfl, rfl⟩

theorem cold_claim_cycle {fuel : Nat} {db dbg : DB V} {stack : List Key}
    {key : Key} {rev : Revision}
    (hclaim : db.claimAttempt stack key = (.cycle, dbg)) :
    maybe_changed_after_cold (fuel + 1) db stack key rev =
      some (.cycle, dbg) := by
  simp only [maybe_changed_after_cold, hclaim]

theorem cold_claim_contention {fuel : Nat} {db dbg : DB V}
    {stack : List Key} {key : Key} {rev : Revision}
    (hclaim : db.claimAttempt stack key = (.contention, dbg)) :
    maybe_changed_after_cold (fuel + 1) db stack key rev =
      some (.retry, dbg) := by
  simp only [maybe_changed_after_cold, hclaim]

theorem cold_claim_granted {fuel : Nat} {db dbg : DB V} {stack : List Key}
    {key : Key} {rev : Revision}
    (hclaim : db.claimAttempt stack key = (.granted, dbg)) :
    maybe_changed_after_cold (fuel + 1) db stack key rev =
      match dbg.memos key with
      | none => some (.ok true, dbg)
      | some old_memo =>
        match deep_verify_memo fuel dbg (key :: stack) key old_memo with
        | none => none
        | some (.cycle, db2) => some (.cycle, db2)
        | some (.ok true, db2) =>
          some (.ok (decide (rev < old_memo.revisions.changed_at)), db2)
        | some (.ok false, db2) =>
          if old_memo.value.isSome then
            let r := execute db2 key (some old_memo)
            some (.ok (decide (rev < r.1.changed_at)), r.2)
          else some (.ok true, db2) := by
  simp only [maybe_changed_after_cold, hclaim]

theorem deep_assigned {fuel : Nat} {db : DB V} {stack : List Key}
    {key : Key} {m : Memo V} {p : Key}
    (hs : (shallow_verify_memo db key m).1 = false)
    (ho : m.revisions.origin = .assigned p) :
    deep_verify_memo (fuel + 1) db stack key m = some (.ok false, db) := by
  simp only [deep_verify_memo, shallow_false_eq hs, ho]

theorem deep_base_or_field {fuel : Nat} {db : DB V} {stack : List Key}
    {key : Key} {m : Memo V}
    (hs : (shallow_verify_memo db key m).1 = false)
    (ho : m.revisions.origin = .baseInput ∨ m.revisions.origin = .field) :
    deep_verify_memo (fuel + 1) db stack key m = some (.ok true, db) := by
  rcases ho with ho | ho <;> simp only [deep_verify_memo, shallow_false_eq hs, ho]

theorem deep_untracked {fuel : Nat} {db : DB V} {stack : List Key}
    {key : Key} {m : Memo V} {es : List Key}
    (hs : (shallow_verify_memo db key m).1 = false)
    (ho : m.revisions.origin = .derivedUntracked es) :
    deep_verify_memo (fuel + 1) db stack key m = some (.ok false, db) := by
  simp only [deep_verify_memo, shallow_false_eq hs, ho]

theorem trans_all (fuel : Nat) :
    (∀ (db db1 : DB V) (stack : List Key) (key : Key) (rev : Revision)
      (o : Outcome),
      maybe_changed_after fuel db stack key rev = some (o, db1) →
      DBTrans db db1) ∧
    (∀ (db db1 : DB V) (stack : List Key) (key : Key) (rev : Revision)
      (o : ColdOut),
      maybe_changed_after_cold fuel db stack key rev = some (o, db1) →
      DBTrans db db1) ∧
    (∀ (db db1 : DB V) (stack : List Key) (key : Key) (m : Memo V)
      (o : Outcome), db.memos key = some m →
      deep_verify_memo fuel db stack key m = some (o, db1) →
      DBTrans db db1) ∧
    (∀ (db db1 : DB V) (stack : List Key) (lva : Revision) (es : List Key)
      (o : Outcome),
      verify_edges fuel db stack lva es = some (o, db1) →
      DBTrans db db1) := by
  induction fuel with
  | zero =>
    refine ⟨?_, ?_, ?_, ?_⟩
    · intro db db1 stack key rev o h
      simp [maybe_changed_after] at h
    · intro db db1 stack key rev o h
      simp [maybe_changed_after_cold] at h
    · intro db db1 stack key m o hm h
      simp [deep_verify_memo] at h
    · intro db db1 stack lva es o h
      simp [verify_edges] at h
  | succ f ih =>
    obtain ⟨ihm, ihc, ihd, ihe⟩ := ih
    refine ⟨?_, ?_, ?_, ?_⟩
    · -- maybe_changed_after
      intro db db1 stack key rev o h
      cases hmem : db.memos key with
      | none =>
        rw [mca_none hmem] at h
        cases h
        exact DBTrans_refl db
      | some memo =>
        cases hsh : shallow_verify_memo db key memo with
        | mk sb dbs =>
          cases sb with
          | true =>
            rw [mca_hot hmem hsh] at h
            cases h
            exact DBTrans_shallow hmem hsh
          | false =>
            have hs1 : (shallow_verify_memo db key memo).1 = false := by
              rw [hsh]
            cases hc : maybe_changed_after_cold f db stack key rev with
            | none =>
              rw [mca_cold_none hmem hs1 hc] at h
              cases h
            | some p =>
              obtain ⟨co, db2⟩ := p
              cases co with
              | ok c =>
                rw [mca_cold_ok hmem hs1 hc] at h
                cases h
                exact ihc db db1 stack key rev _ hc
              | cycle =>
                rw [mca_cold_cycle hmem hs1 hc] at h
                cases h
                exact ihc db db1 stack key rev _ hc
              | retry =>
                rw [mca_cold_retry hmem hs1 hc] at h
                exact DBTrans_comp (ihc db db2 stack key rev _ hc)
                  (ihm db2 db1 stack key rev o h)
    · -- maybe_changed_after_cold
      intro db db1 stack key rev o h
      cases hclaim : db.claimAttempt stack key with
      | mk r dbg =>
        obtain ⟨hgm, hgc, hgl, hge⟩ := claimAttempt_fields hclaim
        have hTg : DBTrans db dbg := DBTrans_claim hclaim
        cases r with
        | cycle =>
          rw [cold_claim_cycle hclaim] at h
          cases h
          exact hTg
        | contention =>
          rw [cold_claim_contention hclaim] at h
          cases h
          exact hTg
        | granted =>
          rw [cold_claim_granted hclaim] at h
          cases hmem : dbg.memos key with
          | none =>
            simp only [hmem] at h
            cases h
            exact hTg
          | some m =>
            cases hd : deep_verify_memo f dbg (key :: stack) key m with
            | none =>
              simp only [hmem, hd] at h
              cases h
            | some p =>
              obtain ⟨dout, db2⟩ := p
              have hT2 : DBTrans db db2 :=
                DBTrans_comp hTg (ihd dbg db2 (key :: stack) key m _ hmem hd)
              cases dout with
              | cycle =>
                simp only [hmem, hd] at h
                cases h
                exact hT2
              | ok dv =>
                cases dv with
                | true =>
                  simp only [hmem, hd] at h
                  cases h
                  exact hT2
                | false =>
                  cases hv : m.value.isSome with
                  | false =>
                    simp only [hmem, hd, hv, Bool.false_eq_true,
                      if_false] at h
                    cases h
                    exact hT2
                  | true =>
                    simp only [hmem, hd, hv, if_true] at h
                    cases h
                    have hf := deep_false_facts hd
                    have hparts := shallow_false_parts hf.1
                    have h1x : m.verified_at ≠ db.current_revision := by
                      rw [← hgc]
                      exact hparts.1
                    have h2x : check_durability db m = false := by
                      rw [← check_durability_congr m hgl]
                      exact hparts.2
                    have hmd : db.memos key = some m := by
                      rw [← hgm]
                      exact hmem
                    exact DBTrans_exec_after hT2 hmd h1x h2x hv hf.2.1
                      hf.2.2
    · -- deep_verify_memo
      intro db db1 stack key m o hm h
      cases hsh : shallow_verify_memo db key m with
      | mk sb dbs =>
        cases sb with
        | true =>
          rw [deep_shallow_true hsh] at h
          cases h
          exact DBTrans_shallow hm hsh
        | false =>
          have hs1 : (shallow_verify_memo db key m).1 = false := by rw [hsh]
          cases ho : m.revisions.origin with
          | assigned p =>
            rw [deep_assigned hs1 ho] at h
            cases h
            exact DBTrans_refl db
          | baseInput =>
            rw [deep_base_or_field hs1 (Or.inl ho)] at h
            cases h
            exact DBTrans_refl db
          | field =>
            rw [deep_base_or_field hs1 (Or.inr ho)] at h
            cases h
            exact DBTrans_refl db
          | derivedUntracked es =>
            rw [deep_untracked hs1 ho] at h
            cases h
            exact DBTrans_refl db
          | derived es =>
            cases hw : verify_edges f db stack m.verified_at es with
            | none =>
              rw [deep_walk_none hs1 ho hw] at h
              cases h
            | some p =>
              obtain ⟨wo, db2⟩ := p
              cases wo with
              | cycle =>
                rw [deep_walk_cycle hs1 ho hw] at h
                cases h
                exact ihe db db1 stack m.verified_at es _ hw
              | ok wv =>
                cases wv with
                | true =>
                  rw [deep_walk_changed hs1 ho hw] at h
                  cases h
                  exact ihe db db1 stack m.verified_at es _ hw
                | false =>
                  rw [deep_walk_clean hs1 ho hw] at h
                  cases h
                  exact DBTrans_mark_after
                    (ihe db db2 stack m.verified_at es _ hw) hm
                    (Or.inr ⟨es, ho⟩)
    · -- verify_edges
      intro db db1 stack lva es o h
      cases es with
      | nil =>
        rw [verify_edges_nil] at h
        cases h
        exact DBTrans_refl db
      | cons e rest =>
        cases hmca : maybe_changed_after f db stack e lva with
        | none =>
          rw [edges_none hmca] at h
          cases h
        | some p =>
          obtain ⟨mo, dbm⟩ := p
          cases mo with
          | cycle =>
            rw [edges_cycle hmca] at h
            cases h
            exact ihm db db1 stack e lva _ hmca
          | ok mv =>
            cases mv with
            | true =>
              rw [edges_changed hmca] at h
              cases h
              exact ihm db db1 stack e lva _ hmca
            | false =>
              rw [edges_unchanged hmca] at h
              exact DBTrans_comp (ihm db dbm stack e lva _ hmca)
                (ihe dbm db1 stack lva rest o h)

end Salsa

namespace Salsa

variable {V : Type} [DecidableEq V]

set_option linter.unusedSectionVars false

theorem execMemo_changed_le {db : DB V} {k : Key} {m : Memo V}
    (h : m.revisions.changed_at ≤ db.current_revision) :
    (execMemo db k (some m)).revisions.changed_at ≤ db.current_revision := by
  cases hv : m.value with
  | none => simp [execMemo, hv]
  | some ov =>
    by_cases he : (db.executor k).value = ov
    · simpa [execMemo, hv, he] using h
    · simp [execMemo, hv, he]

theorem WF_of_DBTrans {db db1 : DB V} (hT : DBTrans db db1)
    (hW : WFdb db) : WFdb db1 := by
  obtain ⟨hc, hl, he, hs, hmt⟩ := hT
  intro k m1 hm1
  rw [hc]
  rcases hmt k with heq | ⟨m, hma, hmb, hg⟩ | ⟨m, hma, hmb, _, _, _, _, _⟩
  · rw [heq] at hm1
    exact hW k m1 hm1
  · rw [hmb] at hm1
    cases hm1
    obtain ⟨h1, h2⟩ := hW k m hma
    exact ⟨le_trans h1 h2, le_refl _⟩
  · rw [hmb] at hm1
    cases hm1
    obtain ⟨h1, h2⟩ := hW k m hma
    exact ⟨execMemo_changed_le (le_trans h1 h2), le_refl _⟩

theorem mono_of_DBTrans {db db1 : DB V} (hT : DBTrans db db1)
    (hW : WFdb db) :
    ∀ k m, db.memos k = some m →
      ∃ m1, db1.memos k = some m1 ∧ m.verified_at ≤ m1.verified_at := by
  obtain ⟨hc, hl, he, hs, hmt⟩ := hT
  intro k m hm
  rcases hmt k with heq | ⟨m0, hma, hmb, hg⟩ | ⟨m0, hma, hmb, _, _, _, _, _⟩
  · rw [heq, hm]
    exact ⟨m, rfl, le_refl _⟩
  · rw [hma] at hm
    cases hm
    exact ⟨mark_as_verified db m, hmb, (hW k m hma).2⟩
  · rw [hma] at hm
    cases hm
    exact ⟨execMemo db k (some m), hmb, (hW k m hma).2⟩

theorem execute_state_memos {db : DB V} {key : Key} {o : Option (Memo V)}
    (k : Key) :
    (execute db key o).2.memos k =
      if k = key then some (execMemo db key o) else db.memos k := by
  simp [execute, DB.setMemo]

/-- C8: the memo invariant `changed_at ≤ verified_at ≤ current_revision`
is preserved by every operation of the verification engine (a full
`maybe_changed_after` call, shallow verification, deep verification, and
re-execution), and across each such operation every stored memo's
`verified_at` either stays the same or increases -- it never decreases
over a memo's lifetime. -/
theorem verified_at_monotone (fuel : Nat) (db : DB V) (hW : WFdb db) :
    (∀ db1 stack key rev o,
      maybe_changed_after fuel db stack key rev = some (o, db1) →
      WFdb db1 ∧ ∀ k m, db.memos k = some m →
        ∃ m1, db1.memos k = some m1 ∧ m.verified_at ≤ m1.verified_at) ∧
    (∀ db1 key m b, db.memos key = some m →
      shallow_verify_memo db key m = (b, db1) →
      WFdb db1 ∧ ∀ k m0, db.memos k = some m0 →
        ∃ m1, db1.memos k = some m1 ∧ m0.verified_at ≤ m1.verified_at) ∧
    (∀ db1 stack key m o, db.memos key = some m →
      deep_verify_memo fuel db stack key m = some (o, db1) →
      WFdb db1 ∧ ∀ k m0, db.memos k = some m0 →
        ∃ m1, db1.memos k = some m1 ∧ m0.verified_at ≤ m1.verified_at) ∧
    (∀ key old, db.memos key = some old →
      WFdb (execute db key (some old)).2 ∧
      ∀ k m0, db.memos k = some m0 →
        ∃ m1, (execute db key (some old)).2.memos k = some m1 ∧
          m0.verified_at ≤ m1.verified_at) := by
  refine ⟨?_, ?_, ?_, ?_⟩
  · intro db1 stack key rev o h
    have hT := (trans_all fuel).1 db db1 stack key rev o h
    exact ⟨WF_of_DBTrans hT hW, mono_of_DBTrans hT hW⟩
  · intro db1 key m b hm hs
    have hT := DBTrans_shallow hm hs
    exact ⟨WF_of_DBTrans hT hW, mono_of_DBTrans hT hW⟩
  · intro db1 stack key m o hm h
    have hT := (trans_all fuel).2.2.1 db db1 stack key m o hm h
    exact ⟨WF_of_DBTrans hT hW, mono_of_DBTrans hT hW⟩
  · intro key old hm
    constructor
    · intro k m1 hm1
      rw [execute_state_memos k] at hm1
      by_cases hk : k = key
      · rw [if_pos hk] at hm1
        cases hm1
        obtain ⟨h1, h2⟩ := hW key old hm
        exact ⟨execMemo_changed_le (le_trans h1 h2), le_refl _⟩
      · rw [if_neg hk] at hm1
        exact hW k m1 hm1
    · intro k m0 hm0
      rw [execute_state_memos k]
      by_cases hk : k = key
      · subst hk
        rw [hm] at hm0
        cases hm0
        exact ⟨execMemo db k (some old), by rw [if_pos rfl],
          (hW k old hm).2⟩
      · exact ⟨m0, by rw [if_neg hk, hm0], le_refl _⟩

end Salsa

namespace Salsa

variable {V : Type} [DecidableEq V]

set_option linter.unusedSectionVars false

theorem exWalk_WF : WFdb exWalk := by
  intro k m hm
  simp only [exWalk] at hm ⊢
  split_ifs at hm <;> cases hm <;> exact ⟨by decide, by decide⟩

/-- Closed instance of `verified_at_monotone`: the hot-path call on key 0
of `exWalk` preserves well-formedness and every memo's `verified_at`. -/
theorem verified_at_monotone_witness :
    WFdb exWalk ∧ ∀ k m, exWalk.memos k = some m →
      ∃ m1, exWalk.memos k = some m1 ∧ m.verified_at ≤ m1.verified_at :=
  (verified_at_monotone 1 exWalk exWalk_WF).1 exWalk [] 0 0 (.ok true)
    (by simp [maybe_changed_after, shallow_verify_memo, exWalk])

/-- C10: a `BaseInput` or `Field` memo validated by deep verification
after shallow verification failed is returned with the entire database
state -- in particular the memo's `verified_at` and every other field --
untouched; and across a whole `maybe_changed_after` call each stored memo
is either untouched, or has exactly its `verified_at` advanced to the
current revision (possible only when the durability check passes, i.e. a
shallow verify succeeded on it, or when its origin is `Derived`, i.e. its
full edge walk completed with no change), or is replaced wholesale by
re-execution (possible only for a shallow-fail memo with a prior value
whose origin is neither `BaseInput` nor `Field`). -/
theorem deep_verify_frame (fuel : Nat) (db : DB V) :
    (∀ stack key m, (shallow_verify_memo db key m).1 = false →
      (m.revisions.origin = .baseInput ∨ m.revisions.origin = .field) →
      deep_verify_memo (fuel + 1) db stack key m = some (.ok true, db)) ∧
    (∀ db1 stack key rev o,
      maybe_changed_after fuel db stack key rev = some (o, db1) →
      ∀ k m, db.memos k = some m →
        db1.memos k = some m ∨
        (db1.memos k = some (mark_as_verified db m) ∧
          (check_durability db m = true ∨
            ∃ es, m.revisions.origin = .derived es)) ∨
        (db1.memos k = some (execMemo db k (some m)) ∧
          m.verified_at ≠ db.current_revision ∧
          check_durability db m = false ∧ m.value.isSome = true ∧
          m.revisions.origin ≠ .baseInput ∧
          m.revisions.origin ≠ .field)) := by
  constructor
  · intro stack key m hs ho
    exact deep_base_or_field hs ho
  · intro db1 stack key rev o h k m hm
    obtain ⟨-, -, -, -, hmt⟩ := (trans_all fuel).1 db db1 stack key rev o h
    rcases hmt k with heq |
        ⟨m0, hma, hmb, hg⟩ | ⟨m0, hma, hmb, hv, hd, hsm, ho1, ho2⟩
    · exact Or.inl (heq.trans hm)
    · rw [hma] at hm
      cases hm
      exact Or.inr (Or.inl ⟨hmb, hg⟩)
    · rw [hma] at hm
      cases hm
      exact Or.inr (Or.inr ⟨hmb, hv, hd, hsm, ho1, ho2⟩)

/-- Closed instance of `deep_verify_frame`: the `BaseInput` memo of
`exInput` is validated with the state untouched, and across the
durability-marking hot call on `exDur` key 0's memo falls under the
untouched-or-marked-or-re-executed trichotomy. -/
theorem deep_verify_frame_witness :
    deep_verify_memo 2 exInput [0] 0 exInputMemo =
      some (.ok true, exInput) ∧
    ((exDur.setMemo 0 (mark_as_verified exDur exDurMemo)).memos 0 =
        some exDurMemo ∨
      ((exDur.setMemo 0 (mark_as_verified exDur exDurMemo)).memos 0 =
          some (mark_as_verified exDur exDurMemo) ∧
        (check_durability exDur exDurMemo = true ∨
          ∃ es, exDurMemo.revisions.origin = .derived es)) ∨
      ((exDur.setMemo 0 (mark_as_verified exDur exDurMemo)).memos 0 =
          some (execMemo exDur 0 (some exDurMemo)) ∧
        exDurMemo.verified_at ≠ exDur.current_revision ∧
        check_durability exDur exDurMemo = false ∧
        exDurMemo.value.isSome = true ∧
        exDurMemo.revisions.origin ≠ .baseInput ∧
        exDurMemo.revisions.origin ≠ .field)) :=
  ⟨(deep_verify_frame 1 exInput).1 [0] 0 exInputMemo (by decide)
      (Or.inl rfl),
    (deep_verify_frame 1 exDur).2
      (exDur.setMemo 0 (mark_as_verified exDur exDurMemo)) [] 0 0
      (.ok true)
      (by simp [maybe_changed_after, shallow_verify_memo, check_durability,
        mark_as_verified, exDur, exDurMemo])
      0 exDurMemo rfl⟩

end Salsa

namespace Salsa

variable {V : Type} [DecidableEq V]

set_option linter.unusedSectionVars false

theorem claim_granted_not_mem {db dbg : DB V} {stack : List Key} {j : Key}
    (h : db.claimAttempt stack j = (.granted, dbg)) : j ∉ stack := by
  unfold DB.claimAttempt at h
  split at h
  · cases h
  · next hj => exact hj

theorem conditions_transport {db db2 : DB V} {m : Memo V}
    (hT : DBTrans db db2)
    (hv : m.verified_at ≠ db.current_revision)
    (hd : check_durability db m = false) :
    m.verified_at ≠ db2.current_revision ∧
    check_durability db2 m = false := by
  obtain ⟨hc, hl, -, -, -⟩ := hT
  constructor
  · rw [hc]
    exact hv
  · rw [check_durability_congr m hl]
    exact hd

theorem shallow_frame {db dbs : DB V} {j : Key} {mj : Memo V} {sb : Bool}
    {k : Key} {m : Memo V}
    (hm : db.memos k = some m)
    (hv : m.verified_at ≠ db.current_revision)
    (hd : check_durability db m = false)
    (hmj : db.memos j = some mj)
    (hs : shallow_verify_memo db j mj = (sb, dbs)) :
    dbs.memos k = some m := by
  unfold shallow_verify_memo at hs
  split at hs
  · cases hs
    exact hm
  · split at hs
    · next hdur =>
      cases hs
      by_cases hjk : j = k
      · subst hjk
        rw [hmj] at hm
        cases hm
        rw [hd] at hdur
        cases hdur
      · have hkj : ¬(k = j) := fun h => hjk h.symm
        simp [DB.setMemo, hkj]
        exact hm
    · cases hs
      exact hm

theorem DBTrans_frozen_current {db db2 : DB V} (hT : DBTrans db db2)
    {k : Key} {m : Memo V} (hm : db.memos k = some m)
    (hv : m.verified_at = db.current_revision) :
    db2.memos k = some m := by
  obtain ⟨hc, hl, he, hs, hmt⟩ := hT
  rcases hmt k with heq | ⟨m0, hma, hmb, hg⟩ | ⟨m0, hma, hmb, hv0, _, _, _, _⟩
  · rw [heq, hm]
  · rw [hma] at hm
    cases hm
    rw [hmb, mark_of_current hv]
  · rw [hma] at hm
    cases hm
    exact absurd hv hv0

theorem DBTrans_frozen_input {db db2 : DB V} (hT : DBTrans db db2)
    {k : Key} {m : Memo V} (hm : db.memos k = some m)
    (hd : check_durability db m = false)
    (ho : m.revisions.origin = .baseInput ∨ m.revisions.origin = .field) :
    db2.memos k = some m := by
  obtain ⟨hc, hl, he, hs, hmt⟩ := hT
  rcases hmt k with heq | ⟨m0, hma, hmb, hg⟩ |
      ⟨m0, hma, hmb, _, _, _, ho1, ho2⟩
  · rw [heq, hm]
  · rw [hma] at hm
    cases hm
    rcases hg with hg | ⟨es, hg⟩
    · rw [hd] at hg
      cases hg
    · rcases ho with ho | ho <;> rw [ho] at hg <;> cases hg
  · rw [hma] at hm
    cases hm
    rcases ho with ho | ho
    · exact absurd ho ho1
    · exact absurd ho ho2

end Salsa

namespace Salsa

variable {V : Type} [DecidableEq V]

set_option linter.unusedSectionVars false

theorem shallow_frame_ne {db dbs : DB V} {j : Key} {mj : Memo V} {sb : Bool}
    {k : Key} (hjk : j ≠ k)
    (hs : shallow_verify_memo db j mj = (sb, dbs)) :
    dbs.memos k = db.memos k := by
  unfold shallow_verify_memo at hs
  split at hs
  · cases hs
    rfl
  · split at hs
    · cases hs
      have hkj : ¬(k = j) := fun h => hjk h.symm
      simp [DB.setMemo, hkj]
    · cases hs
      rfl

theorem frame_protected (fuel : Nat) :
    (∀ (db db1 : DB V) (stack : List Key) (j : Key) (rev : Revision)
      (o : Outcome) (k : Key) (m : Memo V),
      k ∈ stack → db.memos k = some m →
      m.verified_at ≠ db.current_revision →
      check_durability db m = false →
      maybe_changed_after fuel db stack j rev = some (o, db1) →
      db1.memos k = some m) ∧
    (∀ (db db1 : DB V) (stack : List Key) (j : Key) (rev : Revision)
      (o : ColdOut) (k : Key) (m : Memo V),
      k ∈ stack → db.memos k = some m →
      m.verified_at ≠ db.current_revision →
      check_durability db m = false →
      maybe_changed_after_cold fuel db stack j rev = some (o, db1) →
      db1.memos k = some m) ∧
    (∀ (db db1 : DB V) (stack : List Key) (j : Key) (mj : Memo V)
      (o : Outcome) (k : Key) (m : Memo V),
      k ∈ stack → db.memos k = some m →
      m.verified_at ≠ db.current_revision →
      check_durability db m = false →
      j ≠ k →
      deep_verify_memo fuel db stack j mj = some (o, db1) →
      db1.memos k = some m) ∧
    (∀ (db db1 : DB V) (stack : List Key) (lva : Revision) (es : List Key)
      (o : Outcome) (k : Key) (m : Memo V),
      k ∈ stack → db.memos k = some m →
      m.verified_at ≠ db.current_revision →
      check_durability db m = false →
      verify_edges fuel db stack lva es = some (o, db1) →
      db1.memos k = some m) := by
  induction fuel with
  | zero =>
    refine ⟨?_, ?_, ?_, ?_⟩
    · intro db db1 stack j rev o k m _ _ _ _ h
      simp [maybe_changed_after] at h
    · intro db db1 stack j rev o k m _ _ _ _ h
      simp [maybe_changed_after_cold] at h
    · intro db db1 stack j mj o k m _ _ _ _ _ h
      simp [deep_verify_memo] at h
    · intro db db1 stack lva es o k m _ _ _ _ h
      simp [verify_edges] at h
  | succ f ih =>
    obtain ⟨ihm, ihc, ihd, ihe⟩ := ih
    refine ⟨?_, ?_, ?_, ?_⟩
    · -- maybe_changed_after
      intro db db1 stack j rev o k m hk hm hv hd h
      cases hmem : db.memos j with
      | none =>
        rw [mca_none hmem] at h
        cases h
        exact hm
      | some mj =>
        cases hsh : shallow_verify_memo db j mj with
        | mk sb dbs =>
          cases sb with
          | true =>
            rw [mca_hot hmem hsh] at h
            cases h
            exact shallow_frame hm hv hd hmem hsh
          | false =>
            have hs1 : (shallow_verify_memo db j mj).1 = false := by rw [hsh]
            cases hc : maybe_changed_after_cold f db stack j rev with
            | none =>
              rw [mca_cold_none hmem hs1 hc] at h
              cases h
            | some p =>
              obtain ⟨co, db2⟩ := p
              cases co with
              | ok c =>
                rw [mca_cold_ok hmem hs1 hc] at h
                cases h
                exact ihc db db1 stack j rev _ k m hk hm hv hd hc
              | cycle =>
                rw [mca_cold_cycle hmem hs1 hc] at h
                cases h
                exact ihc db db1 stack j rev _ k m hk hm hv hd hc
              | retry =>
                rw [mca_cold_retry hmem hs1 hc] at h
                have hk2 := ihc db db2 stack j rev _ k m hk hm hv hd hc
                have hT := (trans_all f).2.1 db db2 stack j rev _ hc
                obtain ⟨hv2, hd2⟩ := conditions_transport hT hv hd
                exact ihm db2 db1 stack j rev o k m hk hk2 hv2 hd2 h
    · -- maybe_changed_after_cold
      intro db db1 stack j rev o k m hk hm hv hd h
      cases hclaim : db.claimAttempt stack j with
      | mk r dbg =>
        obtain ⟨hgm, hgc, hgl, hge⟩ := claimAttempt_fields hclaim
        have hmg : dbg.memos k = some m := by
          rw [hgm]
          exact hm
        have hvg : m.verified_at ≠ dbg.current_revision := by
          rw [hgc]
          exact hv
        have hdg : check_durability dbg m = false := by
          rw [check_durability_congr m hgl]
          exact hd
        cases r with
        | cycle =>
          rw [cold_claim_cycle hclaim] at h
          cases h
          exact hmg
        | contention =>
          rw [cold_claim_contention hclaim] at h
          cases h
          exact hmg
        | granted =>
          have hjs : j ∉ stack := claim_granted_not_mem hclaim
          have hjk : j ≠ k := fun he => hjs (he ▸ hk)
          rw [cold_claim_granted hclaim] at h
          cases hmemj : dbg.memos j with
          | none =>
            simp only [hmemj] at h
            cases h
            exact hmg
          | some mj =>
            cases hd2 : deep_verify_memo f dbg (j :: stack) j mj with
            | none =>
              simp only [hmemj, hd2] at h
              cases h
            | some p =>
              obtain ⟨dout, db2⟩ := p
              have hk2 : db2.memos k = some m :=
                ihd dbg db2 (j :: stack) j mj dout k m
                  (List.mem_cons_of_mem _ hk) hmg hvg hdg hjk hd2
              cases dout with
              | cycle =>
                simp only [hmemj, hd2] at h
                cases h
                exact hk2
              | ok dv =>
                cases dv with
                | true =>
                  simp only [hmemj, hd2] at h
                  cases h
                  exact hk2
                | false =>
                  cases hval : mj.value.isSome with
                  | false =>
                    simp only [hmemj, hd2, hval, Bool.false_eq_true,
                      if_false] at h
                    cases h
                    exact hk2
                  | true =>
                    simp only [hmemj, hd2, hval, if_true] at h
                    cases h
                    rw [execute_state_memos k,
                      if_neg (fun he => hjk he.symm)]
                    exact hk2
    · -- deep_verify_memo
      intro db db1 stack j mj o k m hk hm hv hd hjk h
      cases hsh : shallow_verify_memo db j mj with
      | mk sb dbs =>
        have hfr : dbs.memos k = db.memos k := shallow_frame_ne hjk hsh
        cases sb with
        | true =>
          rw [deep_shallow_true hsh] at h
          cases h
          rw [hfr]
          exact hm
        | false =>
          have hs1 : (shallow_verify_memo db j mj).1 = false := by rw [hsh]
          cases ho : mj.revisions.origin with
          | assigned p =>
            rw [deep_assigned hs1 ho] at h
            cases h
            exact hm
          | baseInput =>
            rw [deep_base_or_field hs1 (Or.inl ho)] at h
            cases h
            exact hm
          | field =>
            rw [deep_base_or_field hs1 (Or.inr ho)] at h
            cases h
            exact hm
          | derivedUntracked es =>
            rw [deep_untracked hs1 ho] at h
            cases h
            exact hm
          | derived es =>
            cases hw : verify_edges f db stack mj.verified_at es with
            | none =>
              rw [deep_walk_none hs1 ho hw] at h
              cases h
            | some p =>
              obtain ⟨wo, db2⟩ := p
              have hk2 : db2.memos k = some m :=
                ihe db db2 stack mj.verified_at es wo k m hk hm hv hd hw
              cases wo with
              | cycle =>
                rw [deep_walk_cycle hs1 ho hw] at h
                cases h
                exact hk2
              | ok wv =>
                cases wv with
                | true =>
                  rw [deep_walk_changed hs1 ho hw] at h
                  cases h
                  exact hk2
                | false =>
                  rw [deep_walk_clean hs1 ho hw] at h
                  cases h
                  have hkj : ¬(k = j) := fun he => hjk he.symm
                  simp [DB.setMemo, hkj]
                  exact hk2
    · -- verify_edges
      intro db db1 stack lva es o k m hk hm hv hd h
      cases es with
      | nil =>
        rw [verify_edges_nil] at h
        cases h
        exact hm
      | cons e rest =>
        cases hmca : maybe_changed_after f db stack e lva with
        | none =>
          rw [edges_none hmca] at h
          cases h
        | some p =>
          obtain ⟨mo, dbm⟩ := p
          have hk1 : dbm.memos k = some m :=
            ihm db dbm stack e lva mo k m hk hm hv hd hmca
          cases mo with
          | cycle =>
            rw [edges_cycle hmca] at h
            cases h
            exact hk1
          | ok mv =>
            cases mv with
            | true =>
              rw [edges_changed hmca] at h
              cases h
              exact hk1
            | false =>
              rw [edges_unchanged hmca] at h
              have hT := (trans_all f).1 db dbm stack e lva _ hmca
              obtain ⟨hv2, hd2⟩ := conditions_transport hT hv hd
              exact ihe dbm db1 stack lva rest o k m hk hk1 hv2 hd2 h

end Salsa

namespace Salsa

variable {V : Type} [DecidableEq V]

set_option linter.unusedSectionVars false

theorem DBTrans_sched {db db2 : DB V} (hT : DBTrans db db2)
    (h : db.sched = []) : db2.sched = [] := hT.2.2.2.1 h

theorem mca_pos {fuel : Nat} {db : DB V} {stack : List Key} {key : Key}
    {rev : Revision} {x : Outcome × DB V}
    (h : maybe_changed_after fuel db stack key rev = some x) : 1 ≤ fuel := by
  cases fuel with
  | zero => simp [maybe_changed_after] at h
  | succ f => omega

theorem deep_pos {fuel : Nat} {db : DB V} {stack : List Key} {key : Key}
    {m : Memo V} {x : Outcome × DB V}
    (h : deep_verify_memo fuel db stack key m = some x) : 1 ≤ fuel := by
  cases fuel with
  | zero => simp [deep_verify_memo] at h
  | succ f => omega

theorem cold_no_retry {fuel : Nat} {db db2 : DB V} {stack : List Key}
    {key : Key} {rev : Revision} (hsched : db.sched = [])
    (h : maybe_changed_after_cold fuel db stack key rev =
      some (.retry, db2)) : False := by
  cases fuel with
  | zero => simp [maybe_changed_after_cold] at h
  | succ f =>
    by_cases hk : key ∈ stack
    · rw [cold_claim_cycle (claim_cycle hk)] at h
      cases h
    · rw [cold_claim_granted (claim_granted hk hsched)] at h
      cases hmem : db.memos key with
      | none =>
        simp only [hmem] at h
        cases h
      | some m =>
        cases hd : deep_verify_memo f db (key :: stack) key m with
        | none =>
          simp only [hmem, hd] at h
          cases h
        | some p =>
          obtain ⟨o, db3⟩ := p
          cases o with
          | cycle =>
            simp only [hmem, hd] at h
            cases h
          | ok v =>
            cases v with
            | true =>
              simp only [hmem, hd] at h
              cases h
            | false =>
              cases hval : m.value.isSome with
              | true =>
                simp only [hmem, hd, hval, if_true] at h
                cases h
              | false =>
                simp only [hmem, hd, hval, Bool.false_eq_true,
                  if_false] at h
                cases h

theorem replay_hot {db1 : DB V} {stack : List Key} {key : Key}
    {rev : Revision} {b : Bool} (h : hotShape db1 key rev b) :
    ∀ f, 1 ≤ f →
      maybe_changed_after f db1 stack key rev = some (.ok b, db1) := by
  obtain ⟨m, hm, hv, hb⟩ := h
  intro f hf
  obtain ⟨g, rfl⟩ : ∃ g, f = g + 1 := ⟨f - 1, by omega⟩
  rw [mca_hot hm (shallow_of_verified hv), hb]

theorem replay_none {db1 : DB V} {stack : List Key} {key : Key}
    {rev : Revision} {b : Bool} (h : noneShape db1 key b) :
    ∀ f, 1 ≤ f →
      maybe_changed_after f db1 stack key rev = some (.ok b, db1) := by
  obtain ⟨hm, rfl⟩ := h
  intro f hf
  obtain ⟨g, rfl⟩ : ∃ g, f = g + 1 := ⟨f - 1, by omega⟩
  exact mca_none hm

theorem replay_coldInput {db1 : DB V} {stack : List Key} {key : Key}
    {rev : Revision} {b : Bool}
    (h : coldInputShape db1 stack key rev b) (hsched : db1.sched = []) :
    ∀ f, 3 ≤ f →
      maybe_changed_after f db1 stack key rev = some (.ok b, db1) := by
  obtain ⟨m, hm, hv, hd, ho, hk, hb⟩ := h
  intro f hf
  obtain ⟨g, rfl⟩ : ∃ g, f = (g + 2) + 1 := ⟨f - 3, by omega⟩
  have hs1 : (shallow_verify_memo db1 key m).1 = false := by
    rw [shallow_of_parts hv hd]
  subst hb
  exact mca_cold_ok hm hs1
    (cold_deep_true hk hsched hm (deep_base_or_field hs1 ho))

theorem replay_noValue {db1 : DB V} {stack : List Key} {key : Key}
    {rev : Revision} {b : Bool} {bound : Nat}
    (h : noValueShape db1 stack key b bound) (hsched : db1.sched = []) :
    ∀ f, bound + 2 ≤ f →
      maybe_changed_after f db1 stack key rev = some (.ok b, db1) := by
  obtain ⟨m, hm, hv, hd, hval, hk, hb, hdeep⟩ := h
  intro f hf
  obtain ⟨g, rfl⟩ : ∃ g, f = (g + 1) + 1 := ⟨f - 2, by omega⟩
  have hs1 : (shallow_verify_memo db1 key m).1 = false := by
    rw [shallow_of_parts hv hd]
  subst hb
  exact mca_cold_ok hm hs1
    (cold_deep_false_none hk hsched hm
      (hdeep g (by omega)) (by rw [hval]; rfl))

theorem replay_post {db1 : DB V} {stack : List Key} {key : Key}
    {rev : Revision} {b : Bool} {fuel : Nat}
    (h : mcaPost db1 stack key rev b fuel) (hsched : db1.sched = [])
    (hpos : 1 ≤ fuel) :
    ∀ f, fuel ≤ f →
      maybe_changed_after f db1 stack key rev = some (.ok b, db1) := by
  intro f hf
  rcases h with hhot | hnone | ⟨hcold, h3⟩ | ⟨bound, hb2, hnv⟩
  · exact replay_hot hhot f (by omega)
  · exact replay_none hnone f (by omega)
  · exact replay_coldInput hcold hsched f (by omega)
  · exact replay_noValue hnv hsched f (by omega)

theorem mcaPost_transport_false {dbm db1 : DB V} {stack : List Key}
    {e : Key} {lva : Revision} {fuelE : Nat}
    (hpost : mcaPost dbm stack e lva false fuelE) (hT : DBTrans dbm db1) :
    mcaPost db1 stack e lva false fuelE := by
  rcases hpost with ⟨m, hm, hvc, hb⟩ | ⟨hm, hb⟩ |
      ⟨⟨m, hm, hv, hd, ho, hk, hb⟩, h3⟩ |
      ⟨bound, hb2, ⟨m, hm, hv, hd, hval, hk, hb, hdeep⟩⟩
  · refine Or.inl ⟨m, DBTrans_frozen_current hT hm hvc, ?_, hb⟩
    rw [hT.1]
    exact hvc
  · cases hb
  · obtain ⟨hv1, hd1⟩ := conditions_transport hT hv hd
    exact Or.inr (Or.inr (Or.inl
      ⟨⟨m, DBTrans_frozen_input hT hm hd ho, hv1, hd1, ho, hk, hb⟩, h3⟩))
  · cases hb

end Salsa

namespace Salsa

variable {V : Type} [DecidableEq V]

set_option linter.unusedSectionVars false

theorem execute_state_current {db : DB V} {key : Key} {o : Option (Memo V)} :
    (execute db key o).2.current_revision = db.current_revision := rfl

theorem eq_none_of_isSome_false {α : Type} {o : Option α}
    (h : o.isSome = false) : o = none := by
  cases o with
  | none => rfl
  | some a => simp at h

theorem grand (fuel : Nat) :
    (∀ (db db1 : DB V) (stack : List Key) (key : Key) (rev : Revision)
      (b : Bool), db.sched = [] →
      maybe_changed_after fuel db stack key rev = some (.ok b, db1) →
      mcaPost db1 stack key rev b fuel) ∧
    (∀ (db db1 : DB V) (stack : List Key) (key : Key) (rev : Revision)
      (b : Bool), db.sched = [] →
      maybe_changed_after_cold fuel db stack key rev = some (.ok b, db1) →
      mcaPost db1 stack key rev b (fuel + 1)) ∧
    (∀ (db db1 : DB V) (stack : List Key) (key : Key) (m : Memo V)
      (v : Bool), db.sched = [] → db.memos key = some m → key ∈ stack →
      deep_verify_memo fuel db stack key m = some (.ok v, db1) →
      deepPost db db1 stack key m v fuel) ∧
    (∀ (db db1 : DB V) (stack : List Key) (lva : Revision) (es : List Key)
      (w : Bool), db.sched = [] →
      verify_edges fuel db stack lva es = some (.ok w, db1) →
      ∀ f, fuel ≤ f →
        verify_edges f db1 stack lva es = some (.ok w, db1)) := by
  induction fuel with
  | zero =>
    refine ⟨?_, ?_, ?_, ?_⟩
    · intro db db1 stack key rev b _ h
      simp [maybe_changed_after] at h
    · intro db db1 stack key rev b _ h
      simp [maybe_changed_after_cold] at h
    · intro db db1 stack key m v _ _ _ h
      simp [deep_verify_memo] at h
    · intro db db1 stack lva es w _ h
      simp [verify_edges] at h
  | succ f ih =>
    obtain ⟨ihm, ihc, ihd, ihe⟩ := ih
    refine ⟨?_, ?_, ?_, ?_⟩
    · -- maybe_changed_after
      intro db db1 stack key rev b hsched h
      cases hmem : db.memos key with
      | none =>
        rw [mca_none hmem] at h
        cases h
        exact Or.inr (Or.inl ⟨hmem, rfl⟩)
      | some memo =>
        by_cases hvc : memo.verified_at = db.current_revision
        · rw [mca_hot hmem (shallow_of_verified hvc)] at h
          cases h
          exact Or.inl ⟨memo, hmem, hvc, rfl⟩
        · by_cases hdur : check_durability db memo = true
          · have hseq : shallow_verify_memo db key memo =
                (true, db.setMemo key (mark_as_verified db memo)) := by
              unfold shallow_verify_memo
              simp [hvc, hdur]
            rw [mca_hot hmem hseq] at h
            cases h
            exact Or.inl ⟨mark_as_verified db memo,
              by simp [DB.setMemo], rfl, rfl⟩
          · have hs1 : (shallow_verify_memo db key memo).1 = false := by
              rw [shallow_of_parts hvc (by simpa using hdur)]
            cases hc : maybe_changed_after_cold f db stack key rev with
            | none =>
              rw [mca_cold_none hmem hs1 hc] at h
              cases h
            | some p =>
              obtain ⟨co, db2⟩ := p
              cases co with
              | retry => exact absurd hc (by
                  intro hcx
                  exact cold_no_retry hsched hcx)
              | cycle =>
                rw [mca_cold_cycle hmem hs1 hc] at h
                cases h
              | ok c =>
                rw [mca_cold_ok hmem hs1 hc] at h
                cases h
                exact ihc db db1 stack key rev b hsched hc
    · -- maybe_changed_after_cold
      intro db db1 stack key rev b hsched h
      by_cases hk : key ∈ stack
      · rw [cold_claim_cycle (claim_cycle hk)] at h
        cases h
      · have hclaim : db.claimAttempt stack key = (.granted, db) :=
          claim_granted hk hsched
        rw [cold_claim_granted hclaim] at h
        cases hmem : db.memos key with
        | none =>
          simp only [hmem] at h
          cases h
          exact Or.inr (Or.inl ⟨hmem, rfl⟩)
        | some m =>
          cases hd : deep_verify_memo f db (key :: stack) key m with
          | none =>
            simp only [hmem, hd] at h
            cases h
          | some p =>
            obtain ⟨dout, db2⟩ := p
            cases dout with
            | cycle =>
              simp only [hmem, hd] at h
              cases h
            | ok dv =>
              have hpost := ihd db db2 (key :: stack) key m dv hsched hmem
                (List.mem_cons_self key stack) hd
              cases dv with
              | true =>
                simp only [hmem, hd] at h
                cases h
                simp only [deepPost, if_true] at hpost
                rcases hpost with ⟨m1, hm1, hv1, hca⟩ | ⟨rfl, ho, hv, hdur⟩
                · exact Or.inl ⟨m1, hm1, hv1, by rw [hca]⟩
                · exact Or.inr (Or.inr (Or.inl
                    ⟨⟨m, hmem, hv, hdur, ho, hk, rfl⟩,
                      by have := deep_pos hd; omega⟩))
              | false =>
                simp only [deepPost, if_neg] at hpost
                obtain ⟨hm2, hv2, hd2, hreplay⟩ := hpost
                cases hval : m.value.isSome with
                | true =>
                  simp only [hmem, hd, hval, if_true] at h
                  cases h
                  refine Or.inl ⟨execMemo db2 key (some m), ?_, ?_, rfl⟩
                  · rw [execute_state_memos key, if_pos rfl]
                  · rw [execute_state_current]
                    rfl
                | false =>
                  simp only [hmem, hd, hval, Bool.false_eq_true,
                    if_false] at h
                  cases h
                  exact Or.inr (Or.inr (Or.inr ⟨f, by omega,
                    ⟨m, hm2, hv2, hd2, eq_none_of_isSome_false hval, hk,
                      rfl, hreplay⟩⟩))
    · -- deep_verify_memo
      intro db db1 stack key m v hsched hm hk h
      by_cases hvc : m.verified_at = db.current_revision
      · rw [deep_shallow_true (shallow_of_verified hvc)] at h
        cases h
        simp only [deepPost, if_true]
        exact Or.inl ⟨m, hm, hvc, rfl⟩
      · by_cases hdur : check_durability db m = true
        · have hseq : shallow_verify_memo db key m =
              (true, db.setMemo key (mark_as_verified db m)) := by
            unfold shallow_verify_memo
            simp [hvc, hdur]
          rw [deep_shallow_true hseq] at h
          cases h
          simp only [deepPost, if_true]
          exact Or.inl ⟨mark_as_verified db m, by simp [DB.setMemo],
            rfl, rfl⟩
        · have hdur2 : check_durability db m = false := by
            simpa using hdur
          have hs1 : (shallow_verify_memo db key m).1 = false := by
            rw [shallow_of_parts hvc hdur2]
          cases ho : m.revisions.origin with
          | assigned p =>
            rw [deep_assigned hs1 ho] at h
            cases h
            simp only [deepPost, if_neg]
            refine ⟨hm, hvc, hdur2, ?_⟩
            intro fr hfr
            obtain ⟨g, rfl⟩ : ∃ g, fr = g + 1 := ⟨fr - 1, by omega⟩
            exact deep_assigned hs1 ho
          | baseInput =>
            rw [deep_base_or_field hs1 (Or.inl ho)] at h
            cases h
            simp only [deepPost, if_true]
            exact Or.inr ⟨trivial, Or.inl ho, hvc, hdur2⟩
          | field =>
            rw [deep_base_or_field hs1 (Or.inr ho)] at h
            cases h
            simp only [deepPost, if_true]
            exact Or.inr ⟨trivial, Or.inr ho, hvc, hdur2⟩
          | derivedUntracked es =>
            rw [deep_untracked hs1 ho] at h
            cases h
            simp only [deepPost, if_neg]
            refine ⟨hm, hvc, hdur2, ?_⟩
            intro fr hfr
            obtain ⟨g, rfl⟩ : ∃ g, fr = g + 1 := ⟨fr - 1, by omega⟩
            exact deep_untracked hs1 ho
          | derived es =>
            cases hw : verify_edges f db stack m.verified_at es with
            | none =>
              rw [deep_walk_none hs1 ho hw] at h
              cases h
            | some p =>
              obtain ⟨wo, db2⟩ := p
              cases wo with
              | cycle =>
                rw [deep_walk_cycle hs1 ho hw] at h
                cases h
              | ok wv =>
                cases wv with
                | true =>
                  rw [deep_walk_changed hs1 ho hw] at h
                  cases h
                  have hTw := (trans_all f).2.2.2 db db1 stack
                    m.verified_at es _ hw
                  have hm2 : db1.memos key = some m :=
                    (frame_protected f).2.2.2 db db1 stack m.verified_at
                      es _ key m hk hm hvc hdur2 hw
                  obtain ⟨hv2, hd2⟩ := conditions_transport hTw hvc hdur2
                  have hreplayW := ihe db db1 stack m.verified_at es true
                    hsched hw
                  simp only [deepPost, if_neg]
                  refine ⟨hm2, hv2, hd2, ?_⟩
                  intro fr hfr
                  obtain ⟨g, rfl⟩ : ∃ g, fr = g + 1 := ⟨fr - 1, by omega⟩
                  have hs2 : (shallow_verify_memo db1 key m).1 = false := by
                    rw [shallow_of_parts hv2 hd2]
                  exact deep_walk_changed hs2 ho (hreplayW g (by omega))
                | false =>
                  rw [deep_walk_clean hs1 ho hw] at h
                  cases h
                  simp only [deepPost, if_true]
                  refine Or.inl ⟨mark_as_verified db2 m,
                    by simp [DB.setMemo], ?_, rfl⟩
                  rfl
    · -- verify_edges
      intro db db1 stack lva es w hsched h
      cases es with
      | nil =>
        rw [verify_edges_nil] at h
        cases h
        intro fr hfr
        obtain ⟨g, rfl⟩ : ∃ g, fr = g + 1 := ⟨fr - 1, by omega⟩
        exact verify_edges_nil
      | cons e rest =>
        cases hmca : maybe_changed_after f db stack e lva with
        | none =>
          rw [edges_none hmca] at h
          cases h
        | some p =>
          obtain ⟨mo, dbm⟩ := p
          cases mo with
          | cycle =>
            rw [edges_cycle hmca] at h
            cases h
          | ok mv =>
            have hTe := (trans_all f).1 db dbm stack e lva _ hmca
            have hschedm : dbm.sched = [] := DBTrans_sched hTe hsched
            have hpostE := ihm db dbm stack e lva mv hsched hmca
            cases mv with
            | true =>
              rw [edges_changed hmca] at h
              cases h
              intro fr hfr
              obtain ⟨g, rfl⟩ : ∃ g, fr = g + 1 := ⟨fr - 1, by omega⟩
              exact edges_changed (replay_post hpostE hschedm
                (mca_pos hmca) g (by omega))
            | false =>
              rw [edges_unchanged hmca] at h
              have hTrest := (trans_all f).2.2.2 dbm db1 stack lva rest
                _ h
              have hpostE1 := mcaPost_transport_false hpostE hTrest
              have hsched1 : db1.sched = [] := DBTrans_sched hTrest hschedm
              have hreplayR := ihe dbm db1 stack lva rest w hschedm h
              intro fr hfr
              obtain ⟨g, rfl⟩ : ∃ g, fr = g + 1 := ⟨fr - 1, by omega⟩
              rw [edges_unchanged (replay_post hpostE1 hsched1
                (mca_pos hmca) g (by omega))]
              exact hreplayR g (by omega)

end Salsa

namespace Salsa

variable {V : Type} [DecidableEq V]

set_option linter.unusedSectionVars false

/-- C9 (amended): two consecutive `maybe_changed_after(K, R)` calls with
no intervening mutation (same Revision Clock, empty contention schedule)
return the same boolean; the second call leaves the state -- in
particular the Query-Executor invocation counter `exec_count` --
untouched, so it performs no invocation of the Query Executor.  (The
second call is settled by shallow verification when the first left the
memo verified at the current revision; when the first call was answered
by the origin-dispatch verdict of deep verification or by the
no-prior-value rule, the second call repeats that cold path, still
without re-execution.) -/
theorem mca_idempotent (fuel fuel2 : Nat) (db db1 : DB V)
    (stack : List Key) (key : Key) (rev : Revision) (b : Bool)
    (hsched : db.sched = [])
    (h : maybe_changed_after fuel db stack key rev = some (.ok b, db1))
    (hf : fuel ≤ fuel2) :
    maybe_changed_after fuel2 db1 stack key rev = some (.ok b, db1) ∧
    (maybe_changed_after fuel2 db1 stack key rev).map
      (fun p => p.2.exec_count) = some db1.exec_count := by
  have hpost := (grand fuel).1 db db1 stack key rev b hsched h
  have hsched1 : db1.sched = [] :=
    DBTrans_sched ((trans_all fuel).1 db db1 stack key rev _ h) hsched
  have hrep := replay_post hpost hsched1 (mca_pos h) fuel2 hf
  refine ⟨hrep, ?_⟩
  rw [hrep]
  rfl

/-- C9 counterexample: in `exInput` the first `maybe_changed_after` call
is settled on the cold path by the `BaseInput` verdict of deep
verification.  It returns a boolean, yet it leaves the memo's
`verified_at` at 1 while the current revision is 2 -- contradicting "the
first call leaves verified_at at the current revision" -- and shallow
verification still fails on the memo afterwards, so the second call is
not settled by shallow verification. -/
theorem mca_idempotent_counterexample :
    maybe_changed_after 5 exInput [] 0 0 = some (.ok true, exInput) ∧
    exInput.memos 0 = some exInputMemo ∧
    exInputMemo.verified_at ≠ exInput.current_revision ∧
    (shallow_verify_memo exInput 0 exInputMemo).1 = false := by
  refine ⟨?_, rfl, by decide, by decide⟩
  simp [maybe_changed_after, maybe_changed_after_cold, deep_verify_memo,
    shallow_verify_memo, check_durability, DB.claimAttempt, exInput,
    exInputMemo]

/-- Closed instance of `mca_idempotent`: re-running the `exInput` call
from its own post-state returns the same boolean with the same state and
the same `exec_count`. -/
theorem mca_idempotent_witness :
    maybe_changed_after 7 exInput [] 0 0 = some (.ok true, exInput) ∧
    (maybe_changed_after 7 exInput [] 0 0).map
      (fun p => p.2.exec_count) = some exInput.exec_count :=
  mca_idempotent 5 7 exInput exInput [] 0 0 true rfl
    (by simp [maybe_changed_after, maybe_changed_after_cold,
      deep_verify_memo, shallow_verify_memo, check_durability,
      DB.claimAttempt, exInput]) (by omega)

end Salsa
